import Mathlib

/-!
# Verification of the pbh-arxiv-daily listing-ingestion pipeline

Shallow embedding of `scripts/pbh_watch.py`: the record extractor
(`parse_all_entries`), the batch-date resolver (`parse_listing_date`), the
keyword match filter (`is_match` over the compiled pattern
`primordial\s+black\s+holes?|\bPBHs?\b`, case-insensitive), the reconciler
(dedup by `arxiv_id`, source-set union, deterministic sort), the archive
store (write-if-changed JSON files) and the statistics aggregator
(`compute_stats`).

Python strings are modelled as `String`/`List Char` over code points
(the texts the program handles are ASCII; case folding, the `\w` and `\s`
character classes and code-point comparison are embedded at ASCII
granularity).  File-system persistence is modelled as an association list
from the date part of the file name to the parsed batch content; HTML
rendering is modelled as the data it is a pure function of, since
presentation is out of scope.
-/

/-! ## Character and string primitives (Python semantics) -/

/-- ASCII lower-casing of one character, as CPython's case-insensitive
regex matching does for ASCII input. -/
def lc (c : Char) : Char := c.toLower

/-- Python regex `\w` on ASCII text: letters, digits, underscore. -/
def isWordChar (c : Char) : Bool := c.isAlphanum || c = '_'

/-- Python regex `\s` / `str.strip` whitespace on ASCII text. -/
def isSpaceChar (c : Char) : Bool :=
  c = ' ' || c = '\t' || c = '\n' || c = '\r' || c = '\x0b' || c = '\x0c'

/-- Strict code-point lexicographic order on character lists: the order
Python uses to compare `str` values. -/
def listLexLT : List Char → List Char → Bool
  | _, [] => false
  | [], _ :: _ => true
  | a :: as, b :: bs =>
    if a.toNat < b.toNat then true
    else if b.toNat < a.toNat then false
    else listLexLT as bs

/-- Python `a < b` on strings. -/
def strLT (a b : String) : Bool := listLexLT a.data b.data

/-- Python `a <= b` on strings, as the order used by `sorted`/`list.sort`. -/
def strLEp (a b : String) : Prop := strLT b a = false

instance : DecidableRel strLEp := fun a b => by unfold strLEp; infer_instance

/-- Case-sensitive prefix test on character lists (Python `startswith`
without lowering, and the scanner for `in`). -/
def hasPre : List Char → List Char → Bool
  | [], _ => true
  | _ :: _, [] => false
  | a :: as, b :: bs => a == b && hasPre as bs

/-- Case-sensitive substring test: Python `needle in haystack`. -/
def hasSub (pat : List Char) : List Char → Bool
  | [] => hasPre pat []
  | c :: cs => hasPre pat (c :: cs) || hasSub pat cs

/-- Match a literal pattern (given pre-lower-cased) case-insensitively at
the head of the input; return the rest of the input on success. -/
def stripLit : List Char → List Char → Option (List Char)
  | [], l => some l
  | _ :: _, [] => none
  | p :: ps, c :: cs => if lc c = p then stripLit ps cs else none

/-- Case-sensitive prefix strip, used by the `str.replace` model. -/
def stripPre : List Char → List Char → Option (List Char)
  | [], l => some l
  | _ :: _, [] => none
  | a :: as, b :: bs => if a == b then stripPre as bs else none

/-- Fuel-driven worker for `replaceAll`; the fuel is the input length and
never runs out (each step consumes at least one character). -/
def replFuel (pat rep : List Char) : Nat → List Char → List Char
  | _, [] => []
  | 0, l => l
  | Nat.succ n, c :: cs =>
    match stripPre pat (c :: cs) with
    | some r =>
      if pat.isEmpty then c :: replFuel pat rep n cs
      else rep ++ replFuel pat rep n r
    | none => c :: replFuel pat rep n cs

/-- Python `str.replace`: replace every non-overlapping occurrence,
scanning left to right.  (The script only replaces the non-empty literal
`"arXiv:"`, so the empty-pattern guard is never taken.) -/
def replaceAll (pat rep l : List Char) : List Char := replFuel pat rep l.length l

/-- Python `str.strip()` on ASCII whitespace. -/
def pyStripL (l : List Char) : List Char :=
  ((l.dropWhile isSpaceChar).reverse.dropWhile isSpaceChar).reverse

/-- Python `str.strip()` at `String` level. -/
def pyStripS (s : String) : String := String.mk (pyStripL s.data)

/-- Python `sep.join(xs)`. -/
def joinSep (sep : String) : List String → String
  | [] => ""
  | [x] => x
  | x :: y :: xs => x ++ sep ++ joinSep sep (y :: xs)

/-- Association-list lookup (Python `dict` access / `k in d`). -/
def alookup {α : Type} (k : String) : List (String × α) → Option α
  | [] => none
  | p :: ps => if p.1 = k then some p.2 else alookup k ps

/-- ASCII digit test (`\d` in the patterns the script compiles). -/
def isDigitChar (c : Char) : Bool := 48 ≤ c.toNat && c.toNat ≤ 57

/-- Decimal digit character. -/
def digitChar (n : Nat) : Char := Char.ofNat (48 + n)

/-- Fuel-driven decimal digits of a natural number, most significant
first; the fuel is never exhausted for the fuel chosen in `natToStr`. -/
def natDigits : Nat → Nat → List Char
  | 0, _ => []
  | Nat.succ f, n =>
    if n < 10 then [digitChar n]
    else natDigits f (n / 10) ++ [digitChar (n % 10)]

/-- Decimal rendering of a natural number (Python `str(n)` for `n ≥ 0`). -/
def natToStr (n : Nat) : String := String.mk (natDigits (n + 1) n)

/-- Python `f"{n:02d}"`. -/
def pad2 (n : Nat) : String := if n < 10 then "0" ++ natToStr n else natToStr n

/-- Python `f"{n:04d}"` (as `date.isoformat` renders the year). -/
def pad4 (n : Nat) : String :=
  if n < 10 then "000" ++ natToStr n
  else if n < 100 then "00" ++ natToStr n
  else if n < 1000 then "0" ++ natToStr n
  else natToStr n

/-! ## The match filter

The script compiles `re.compile("primordial\\s+black\\s+holes?|\\bPBHs?\\b",
re.IGNORECASE)` and `is_match` tests `REGEX.search(item["fulltext"])`.
The embedding scans every start position, trying each alternative; this is
exactly the boolean outcome of `re.search`.  Two deterministic shortcuts
are sound for existence: `\s+` followed by a non-whitespace literal is
matched by consuming the maximal whitespace run, and the trailing
`s?` of `holes?` never affects whether a match exists. -/

/-- Match `primordial\s+black\s+hole` at the head of the input (the
optional final `s` of `holes?` cannot change whether a match exists). -/
def matchP1 (l : List Char) : Bool :=
  match stripLit "primordial".data l with
  | none => false
  | some r1 =>
    match r1 with
    | [] => false
    | c :: cs =>
      if isSpaceChar c then
        match stripLit "black".data (cs.dropWhile isSpaceChar) with
        | none => false
        | some r2 =>
          match r2 with
          | [] => false
          | d :: ds =>
            if isSpaceChar d then
              (stripLit "hole".data (ds.dropWhile isSpaceChar)).isSome
            else false
      else false

/-- Word-boundary test for the position after a token: end of input or a
non-word character. -/
def boundaryOk : List Char → Bool
  | [] => true
  | c :: _ => !isWordChar c

/-- Match `\bPBHs?\b` at the head of the input, given the character
immediately before the current position (`none` at the start of the
string). -/
def matchP2 (prev : Option Char) (l : List Char) : Bool :=
  (match prev with
   | none => true
   | some c => !isWordChar c) &&
  match stripLit "pbh".data l with
  | none => false
  | some r =>
    match r with
    | [] => true
    | c :: cs =>
      if !isWordChar c then true
      else if lc c = 's' then boundaryOk cs
      else false

/-- `re.search` over the compiled alternation: try both alternatives at
every position, tracking the previous character for `\b`. -/
def searchRec : Option Char → List Char → Bool
  | _, [] => false
  | prev, c :: cs => matchP1 (c :: cs) || matchP2 prev (c :: cs) || searchRec (some c) cs

/-- Boolean outcome of `REGEX.search(s)`. -/
def regexSearch (s : String) : Bool := searchRec none s.data

/-! ## Record shapes -/

/-- One entry dict built by `parse_all_entries`
(`arxiv_id/title/authors/link/fulltext`). -/
structure RawEntry where
  arxiv_id : String
  title : String
  authors : List String
  link : String
  fulltext : String
deriving DecidableEq

/-- An entry after `main` tags it with its source page
(`it["source"] = name`). -/
structure RawItem extends RawEntry where
  source : String
deriving DecidableEq

/-- One dict of `merged_raw` / `merged` and one JSON record of a persisted
batch: fields `source, arxiv_id, title, authors, link` in that order. -/
structure MergedItem where
  source : String
  arxiv_id : String
  title : String
  authors : List String
  link : String
deriving DecidableEq

/-- `is_match(item)`: search the compiled pattern in `item["fulltext"]`. -/
def is_match (it : RawItem) : Bool := regexSearch it.fulltext

/-- The dict literal built for `merged_raw` from a matched item. -/
def toMergedItem (it : RawItem) : MergedItem :=
  { source := it.source, arxiv_id := it.arxiv_id, title := it.title,
    authors := it.authors, link := it.link }

/-! ## Record extractor (`clean_label`, `parse_all_entries`)

A `<dt>/<dd>` pair is modelled by the query results the code reads from
it: the text of the `<dt>`, the first `<a href="/abs/...">` anchor (if
any), the text of the `list-title` div (if present), the anchor texts of
the `list-authors` div (if present), and the full text of the `<dd>`.
Each `<dl>` contributes its zipped `<dt>/<dd>` pairs. -/

/-- The `<a href="/abs/...">` anchor of a `<dt>`: its `href` attribute and
its `get_text(strip=True)` text. -/
structure AbsAnchor where
  href : String
  text : String
deriving DecidableEq

/-- One zipped `<dt>/<dd>` pair as queried by `parse_all_entries`. -/
structure DtDd where
  dt_text : String
  absA : Option AbsAnchor
  titleDiv : Option String
  authDiv : Option (List String)
  dd_text : String
deriving DecidableEq

/-- `clean_label(s, label)`: strip, then drop a case-insensitive `label`
prefix and strip again. -/
def clean_label (s label : String) : String :=
  let t := pyStripS s
  if hasPre (label.data.map lc) (t.data.map lc) then
    pyStripS (String.mk (t.data.drop label.data.length))
  else t

/-- The body of the `parse_all_entries` loop for one `<dt>/<dd>` pair:
skip `(replaced)` entries, skip entries without an `/abs/` anchor,
otherwise build the entry dict. -/
def parseEntry (p : DtDd) : Option RawEntry :=
  if hasSub "(replaced)".data p.dt_text.data then none
  else
    match p.absA with
    | none => none
    | some a =>
      if a.href = "" then none
      else
        some { arxiv_id := pyStripS (String.mk (replaceAll "arXiv:".data [] a.text.data)),
               title := clean_label (p.titleDiv.getD "") "Title:",
               authors := p.authDiv.getD [],
               link := "https://arxiv.org" ++ pyStripS a.href,
               fulltext := p.dd_text }

/-- `parse_all_entries(soup)`: all entries of all `<dl>` blocks. -/
def parse_all_entries (dls : List (List DtDd)) : List RawEntry :=
  dls.flatMap fun dl => dl.filterMap parseEntry

/-! ## Batch date resolver (`parse_listing_date`) -/

/-- Lower-cased full weekday names, as `strptime`'s `%A` accepts
(CPython lowers both sides before matching). -/
def weekdayLC : List String :=
  ["monday", "tuesday", "wednesday", "thursday", "friday", "saturday", "sunday"]

/-- Lower-cased full month names for `%B`; the month number is the
1-based position. -/
def monthLC : List String :=
  ["january", "february", "march", "april", "may", "june",
   "july", "august", "september", "october", "november", "december"]

/-- Try each name in turn (case-insensitively) at the head of the input;
return its 1-based index and the rest.  No name in either table is a
prefix of another, so the try order does not matter. -/
def stripOneOf : List String → Nat → List Char → Option (Nat × List Char)
  | [], _, _ => none
  | n :: ns, i, l =>
    match stripLit n.data l with
    | some r => some (i, r)
    | none => stripOneOf ns (i + 1) l

/-- `strptime`'s day field `(3[01]|[12]\d|0[1-9]|[1-9])`.  When two digits
are read but form no valid day, the single-digit fallback would leave a
digit where the format next requires whitespace, so the whole parse fails
either way and returning `none` is equivalent. -/
def parseDay : List Char → Option (Nat × List Char)
  | [] => none
  | c :: cs =>
    if isDigitChar c then
      match cs with
      | d :: ds =>
        if isDigitChar d then
          let v := (c.toNat - 48) * 10 + (d.toNat - 48)
          if (10 ≤ v ∧ v ≤ 31) ∨ (c = '0' ∧ 1 ≤ v ∧ v ≤ 9) then some (v, ds) else none
        else if 1 ≤ c.toNat - 48 then some (c.toNat - 48, cs) else none
      | [] => if 1 ≤ c.toNat - 48 then some (c.toNat - 48, []) else none
    else none

/-- `strptime`'s `%Y`: exactly four digits. -/
def parseYear4 : List Char → Option (Nat × List Char)
  | a :: b :: c :: d :: r =>
    if isDigitChar a && isDigitChar b && isDigitChar c && isDigitChar d then
      some ((a.toNat - 48) * 1000 + (b.toNat - 48) * 100 + (c.toNat - 48) * 10
             + (d.toNat - 48), r)
    else none
  | _ => none

/-- `\s+` where the next format token never starts with whitespace, so
consuming the maximal run is equivalent to the greedy regex. -/
def stripWSplus : List Char → Option (List Char)
  | [] => none
  | c :: cs => if isSpaceChar c then some (cs.dropWhile isSpaceChar) else none

/-- Gregorian leap year, as `datetime.date` validates. -/
def isLeap (y : Nat) : Bool := (y % 4 = 0 && !(y % 100 = 0)) || y % 400 = 0

/-- Days in a month, as `datetime.date` validates. -/
def daysInMonth (y m : Nat) : Nat :=
  if m = 2 then (if isLeap y then 29 else 28)
  else if m = 4 ∨ m = 6 ∨ m = 9 ∨ m = 11 then 30
  else 31

/-- The range checks `datetime.date(y, m, d)` performs (month validity is
already guaranteed by the month-name table). -/
def validDate (y m d : Nat) : Bool :=
  1 ≤ y && y ≤ 9999 && 1 ≤ d && d ≤ daysInMonth y m

/-- `datetime.strptime(date_str, "%A, %d %B %Y")` followed by
`.date()`: weekday name, a comma, whitespace, day, whitespace, month
name, whitespace, four-digit year, end of string; then calendar
validation.  Returns `(year, month, day)`. -/
def strptimeADBY (s : String) : Option (Nat × Nat × Nat) :=
  match stripOneOf weekdayLC 1 s.data with
  | none => none
  | some (_, r1) =>
    match r1 with
    | ',' :: r2 =>
      match stripWSplus r2 with
      | none => none
      | some r3 =>
        match parseDay r3 with
        | none => none
        | some (d, r4) =>
          match stripWSplus r4 with
          | none => none
          | some r5 =>
            match stripOneOf monthLC 1 r5 with
            | none => none
            | some (m, r6) =>
              match stripWSplus r6 with
              | none => none
              | some r7 =>
                match parseYear4 r7 with
                | none => none
                | some (y, r8) =>
                  if r8 = [] ∧ validDate y m d then some (y, m, d) else none
    | _ => none

/-- `date.isoformat()`. -/
def isoDate (y m d : Nat) : String := pad4 y ++ "-" ++ pad2 m ++ "-" ++ pad2 d

/-- Case-insensitive substring test: `re.search` of a literal pattern
under `re.IGNORECASE` (the pattern is given pre-lower-cased). -/
def hasSubCI (pat : List Char) : List Char → Bool
  | [] => (stripLit pat []).isSome
  | c :: cs => (stripLit pat (c :: cs)).isSome || hasSubCI pat cs

/-- The listing-date marker, lower-cased. -/
def markerLC : List Char := "showing new listings for".data

/-- `re.search(r"Showing new listings for\s+(.*)$", text, re.I)`: at the
leftmost position where the marker is followed by at least one whitespace
character, capture the rest of the text after the maximal whitespace run
(the following `.strip()` makes the greedy/lazy distinction of `\s+`
irrelevant). -/
def extractAfter (pat : List Char) : List Char → Option (List Char)
  | [] => none
  | c :: cs =>
    match stripLit pat (c :: cs) with
    | some (d :: ds) =>
      if isSpaceChar d then some (ds.dropWhile isSpaceChar) else extractAfter pat cs
    | _ => extractAfter pat cs

/-- The distinct failure modes of `parse_listing_date`: the two explicit
`RuntimeError`s and the `ValueError` propagated out of `strptime`.  The
spec's `DateResolutionError` taxonomy maps onto these constructors. -/
inductive DateErr where
  | noHeader : DateErr
  | badHeader : String → DateErr
  | badDate : String → DateErr
deriving DecidableEq

/-- `parse_listing_date(soup)`: find the first `<h3>` whose text matches
the marker (case-insensitively), extract the date text after it, parse it
with `strptime` and render the ISO date.  Every failure raises (is a
distinct error); the ambient clock is never consulted. -/
def parse_listing_date (h3s : List String) : Except DateErr String :=
  match h3s.find? (fun t => hasSubCI markerLC t.data) with
  | none => .error .noHeader
  | some text =>
    match extractAfter markerLC text.data with
    | none => .error (.badHeader text)
    | some rest =>
      let ds := String.mk (pyStripL rest)
      match strptimeADBY ds with
      | none => .error (.badDate ds)
      | some (y, m, d) => .ok (isoDate y m d)

/-! ## Reconciler (`main`, lines 324-362) -/

/-- The in-progress state for one `arxiv_id` key of `by_id`: the
first-arriving record dict and the `_sourceset` set (modelled as a
duplicate-free list; rendering sorts it, so only membership matters). -/
structure IdAcc where
  item : MergedItem
  sourceset : List String
deriving DecidableEq

/-- Python `set.add`. -/
def addSource (s : String) (set : List String) : List String :=
  if s ∈ set then set else set ++ [s]

/-- One iteration of the dedup loop: skip empty ids; first occurrence
creates the entry with `_sourceset = {source} if source else set()`;
later occurrences only union the source label. -/
def dedupStep (m : List (String × IdAcc)) (it : MergedItem) : List (String × IdAcc) :=
  if it.arxiv_id = "" then m
  else
    match alookup it.arxiv_id m with
    | none =>
      m ++ [(it.arxiv_id, ⟨it, if it.source = "" then [] else [it.source]⟩)]
    | some _ =>
      m.map fun p =>
        if p.1 = it.arxiv_id then
          (p.1, ⟨p.2.item,
                 if it.source = "" then p.2.sourceset
                 else addSource it.source p.2.sourceset⟩)
        else p

/-- The `by_id` insertion-ordered dict after the dedup loop. -/
def dedupMap (l : List MergedItem) : List (String × IdAcc) := l.foldl dedupStep []

/-- `sources = sorted(list(_sourceset)); ", ".join(sources) if sources
else it.get("source", "")`. -/
def renderSources (e : IdAcc) : String :=
  let sources := List.insertionSort strLEp e.sourceset
  if sources = [] then e.item.source else joinSep ", " sources

/-- One element of `merged`: the first-arriving dict with its `source`
field replaced by the rendered source string. -/
def renderAcc (p : String × IdAcc) : MergedItem :=
  { p.2.item with source := renderSources p.2 }

/-- The sort key of `merged.sort(key=lambda x: (x["source"], x["arxiv_id"]))`. -/
def keyOf (r : MergedItem) : String × String := (r.source, r.arxiv_id)

/-- Python tuple `<=` on a pair of strings. -/
def tupLE (x y : String × String) : Prop :=
  strLT x.1 y.1 = true ∨ (x.1 = y.1 ∧ strLT y.2 x.2 = false)

instance : DecidableRel tupLE := fun x y => by unfold tupLE; infer_instance

/-- The record order of the final sort. -/
def itemLE (a b : MergedItem) : Prop := tupLE (keyOf a) (keyOf b)

instance : DecidableRel itemLE := fun a b => by unfold itemLE; infer_instance

/-- The reconciler: dedup in arrival order, render source sets, sort by
`(source, arxiv_id)`.  `list.sort` is modelled by insertion sort: the
keys of distinct output records are distinct, so every correct sort of
this list is the same list. -/
def reconcile (l : List MergedItem) : List MergedItem :=
  List.insertionSort itemLE ((dedupMap l).map renderAcc)

/-! ## Archive store (`load_json` / `write_json` / `list_day_files`)

`docs/data/` is modelled as an association list from the date part of the
file name (files are named `<date>.json`) to the parsed batch. -/

/-- The archive directory contents. -/
abbrev Store := List (String × List MergedItem)

/-- `load_json(f"docs/data/{d}.json")`: `None` when the file is absent. -/
def load_json (store : Store) (d : String) : Option (List MergedItem) :=
  alookup d store

/-- `write_json`: overwrite the file if present, create it otherwise. -/
def write_json (store : Store) (d : String) (v : List MergedItem) : Store :=
  if (alookup d store).isSome then
    store.map fun p => if p.1 = d then (d, v) else p
  else store ++ [(d, v)]

/-- `re.fullmatch(r"\d{4}-\d{2}-\d{2}", s)` on the date part of a file
name. -/
def isDayName (s : String) : Bool :=
  match s.data with
  | [a, b, c, d, e, f, g, h, i, j] =>
    isDigitChar a && isDigitChar b && isDigitChar c && isDigitChar d &&
    e = '-' && isDigitChar f && isDigitChar g && h = '-' &&
    isDigitChar i && isDigitChar j
  | _ => false

/-- `list_day_files()`: the date-named files, sorted ascending. -/
def list_day_files (store : Store) : List String :=
  List.insertionSort strLEp ((store.map Prod.fst).filter isDayName)

/-! ## Statistics aggregator (`compute_stats`) -/

/-- `author_count[a] = author_count.get(a, 0) + 1` on an insertion-ordered
dict. -/
def bump (m : List (String × Nat)) (a : String) : List (String × Nat) :=
  match alookup a m with
  | none => m ++ [(a, 1)]
  | some n => m.map fun p => if p.1 = a then (a, n + 1) else p

/-- The dict returned by `compute_stats`. -/
structure Stats where
  update_days : Nat
  total_papers : Nat
  top_authors : List (String × Nat)
deriving DecidableEq

/-- `sorted(author_count.items(), key=lambda x: (-x[1], x[0]))`: count
descending, then author name ascending. -/
def authLE (x y : String × Nat) : Prop :=
  y.2 < x.2 ∨ (x.2 = y.2 ∧ strLT y.1 x.1 = false)

instance : DecidableRel authLE := fun x y => by unfold authLE; infer_instance

/-- `compute_stats(days)`: one pass accumulating the total record count
and the author occurrence dict, then the sorted, truncated leaderboard.
Author names are distinct dict keys, so every correct sort of the item
list is the same list. -/
def compute_stats (store : Store) (days : List String) : Stats :=
  let acc := days.foldl
    (fun (acc : Nat × List (String × Nat)) d =>
      let items := (load_json store d).getD []
      (acc.1 + items.length,
       items.foldl (fun m it => it.authors.foldl bump m) acc.2))
    (0, [])
  { update_days := days.length, total_papers := acc.1,
    top_authors := (List.insertionSort authLE acc.2).take 30 }

/-! ## Page rendering and the run (`render_html`, `main`) -/

/-- The rendered page, modelled as the data it is a pure function of
(presentation is out of scope per the spec). -/
structure Page where
  latest_day : String
  items : List MergedItem
  stats : Stats
  days_desc : List String
deriving DecidableEq

/-- `render_html(latest_day, items, stats, days_desc)`. -/
def render_html (latest_day : String) (items : List MergedItem) (stats : Stats)
    (days_desc : List String) : Page :=
  ⟨latest_day, items, stats, days_desc⟩

/-- One fetched source page, as the code reads it: the `<h3>` texts (for
the date resolver) and the `<dl>` blocks (for the extractor). -/
structure SourceDoc where
  h3s : List String
  dls : List (List DtDd)
deriving DecidableEq

/-- A run-aborting error: a failed fetch (`raise_for_status` or the
request itself), a date-resolution failure, or `max` of an empty date
list when no source is configured. -/
inductive RunErr where
  | fetch : String → RunErr
  | date : String → DateErr → RunErr
  | noSources : RunErr
deriving DecidableEq

/-- One file written by the run: the day's batch JSON, `docs/index.html`,
or `docs/.nojekyll`. -/
inductive WriteEvt where
  | batch : String → List MergedItem → WriteEvt
  | page : Page → WriteEvt
  | nojekyll : WriteEvt
deriving DecidableEq

/-- What a successful run did: the resolved target day, the archive
contents afterwards, and the files written (empty for a
"nothing to update" run). -/
structure RunOutcome where
  day : String
  store : Store
  writes : List WriteEvt
deriving DecidableEq

/-- The per-source half of the fetch loop: propagate a fetch failure,
resolve the listing date, extract the entries and tag them with the
source name. -/
def resolveSource (p : String × Except Unit SourceDoc) :
    Except RunErr (String × String × List RawItem) :=
  match p.2 with
  | .error _ => .error (.fetch p.1)
  | .ok doc =>
    match parse_listing_date doc.h3s with
    | .error e => .error (.date p.1 e)
    | .ok day =>
      .ok (p.1, day, (parse_all_entries doc.dls).map fun e => { toRawEntry := e, source := p.1 })

/-- The fetch loop over `LIST_PAGES`: sources in configured order, the
first failure aborting the run. -/
def resolveAll :
    List (String × Except Unit SourceDoc) →
    Except RunErr (List (String × String × List RawItem))
  | [] => .ok []
  | p :: ps =>
    match resolveSource p with
    | .error e => .error e
    | .ok q =>
      match resolveAll ps with
      | .error e => .error e
      | .ok qs => .ok (q :: qs)

/-- `merged_raw`: the matched, projected items of every source whose
resolved day equals the target day, in source order. -/
def mergedRawOf (latest : String) (parsed : List (String × String × List RawItem)) :
    List MergedItem :=
  parsed.flatMap fun q =>
    if q.2.1 = latest then (q.2.2.filter is_match).map toMergedItem else []

/-- `max(dates)` for a non-empty list (`""` is a bottom element of the
code-point order; callers guard emptiness as Python's `max` raises). -/
def listMax (l : List String) : String :=
  l.foldl (fun cur d => if strLT cur d then d else cur) ""

/-- `main()` after fetching: resolve every source, take the latest day,
match/merge/sort, then compare-and-write the batch file and, when it
changed, re-render the page.  `days_desc = sorted(days, reverse=True)`
equals the reverse of the ascending sort because the day names are
distinct values. -/
def runMain (store : Store) (fetched : List (String × Except Unit SourceDoc)) :
    Except RunErr RunOutcome :=
  match resolveAll fetched with
  | .error e => .error e
  | .ok parsed =>
    match parsed with
    | [] => .error .noSources
    | _ :: _ =>
      let latest := listMax (parsed.map fun q => q.2.1)
      let merged := reconcile (mergedRawOf latest parsed)
      if load_json store latest = some merged then
        .ok ⟨latest, store, []⟩
      else
        let store2 := write_json store latest merged
        let days := list_day_files store2
        let stats := compute_stats store2 days
        let page := render_html latest merged stats days.reverse
        .ok ⟨latest, store2, [.batch latest merged, .page page, .nojekyll]⟩

/-! ## Order lemmas for the embedded Python comparisons -/

theorem charToNat_inj {a b : Char} (h : a.toNat = b.toNat) : a = b :=
  Char.ext (UInt32.ext h)

theorem lex_irrefl : ∀ l, listLexLT l l = false := by
  intro l
  induction l with
  | nil => rfl
  | cons a as ih => simp [listLexLT, ih]

theorem lex_asymm : ∀ a b, listLexLT a b = true → listLexLT b a = false := by
  intro a
  induction a with
  | nil =>
    intro b h
    cases b with
    | nil => simp [listLexLT] at h
    | cons c cs => simp [listLexLT]
  | cons x xs ih =>
    intro b h
    cases b with
    | nil => simp [listLexLT] at h
    | cons y ys =>
      by_cases hxy : x.toNat < y.toNat
      · have : ¬ y.toNat < x.toNat := Nat.lt_asymm hxy
        simp [listLexLT, hxy, this, Nat.lt_asymm hxy]
      · by_cases hyx : y.toNat < x.toNat
        · simp [listLexLT, hxy, hyx] at h
        · simp [listLexLT, hxy, hyx] at h ⊢
          exact ih ys h

theorem lex_eq_of_not_lt : ∀ a b, listLexLT a b = false → listLexLT b a = false → a = b := by
  intro a
  induction a with
  | nil =>
    intro b h1 _
    cases b with
    | nil => rfl
    | cons c cs => simp [listLexLT] at h1
  | cons x xs ih =>
    intro b h1 h2
    cases b with
    | nil => simp [listLexLT] at h2
    | cons y ys =>
      by_cases hxy : x.toNat < y.toNat
      · simp [listLexLT, hxy] at h1
      · by_cases hyx : y.toNat < x.toNat
        · simp [listLexLT, hyx, Nat.lt_asymm hyx] at h2
        · have hx : x = y := charToNat_inj (Nat.le_antisymm (Nat.le_of_not_lt hyx) (Nat.le_of_not_lt hxy))
          simp [listLexLT, hxy, hyx] at h1 h2
          rw [hx, ih ys h1 h2]

theorem lex_trans : ∀ a b c, listLexLT a b = true → listLexLT b c = true → listLexLT a c = true := by
  intro a
  induction a with
  | nil =>
    intro b c h1 h2
    cases b with
    | nil => simp [listLexLT] at h1
    | cons y ys =>
      cases c with
      | nil => simp [listLexLT] at h2
      | cons z zs => simp [listLexLT]
  | cons x xs ih =>
    intro b c h1 h2
    cases b with
    | nil => simp [listLexLT] at h1
    | cons y ys =>
      cases c with
      | nil => simp [listLexLT] at h2
      | cons z zs =>
        by_cases hxy : x.toNat < y.toNat
        · by_cases hyz : y.toNat < z.toNat
          · simp [listLexLT, Nat.lt_trans hxy hyz]
          · by_cases hzy : z.toNat < y.toNat
            · simp [listLexLT, hyz, hzy] at h2
            · have : y = z := charToNat_inj (Nat.le_antisymm (Nat.le_of_not_lt hzy) (Nat.le_of_not_lt hyz))
              subst this
              simp [listLexLT, hxy]
        · by_cases hyx : y.toNat < x.toNat
          · simp [listLexLT, hxy, hyx] at h1
          · have hx : x = y := charToNat_inj (Nat.le_antisymm (Nat.le_of_not_lt hyx) (Nat.le_of_not_lt hxy))
            subst hx
            simp [listLexLT, hxy, hyx] at h1
            by_cases hyz : x.toNat < z.toNat
            · simp [listLexLT, hyz]
            · by_cases hzy : z.toNat < x.toNat
              · simp [listLexLT, hyz, hzy] at h2
              · simp [listLexLT, hyz, hzy] at h2 ⊢
                exact ih ys zs h1 h2

theorem strLT_eq_of_not_lt {a b : String} (h1 : strLT a b = false) (h2 : strLT b a = false) :
    a = b := by
  cases a with
  | mk da =>
    cases b with
    | mk db =>
      have := lex_eq_of_not_lt da db h1 h2
      simp [this]

theorem strLT_asymm {a b : String} (h : strLT a b = true) : strLT b a = false :=
  lex_asymm _ _ h

theorem strLT_trans {a b c : String} (h1 : strLT a b = true) (h2 : strLT b c = true) :
    strLT a c = true :=
  lex_trans _ _ _ h1 h2

theorem strLT_irrefl (a : String) : strLT a a = false := lex_irrefl _

instance : IsTotal String strLEp :=
  ⟨by
    intro a b
    by_cases h : strLT b a = true
    · exact Or.inr (strLT_asymm h)
    · exact Or.inl (Bool.eq_false_iff.mpr h)⟩

instance : IsTrans String strLEp :=
  ⟨by
    intro a b c h1 h2
    unfold strLEp at *
    by_cases hca : strLT c a = true
    · by_cases hbc : strLT b c = true
      · have := strLT_trans hbc hca
        simp [this] at h1
      · have hbc2 : strLT b c = false := Bool.eq_false_iff.mpr hbc
        have : b = c := strLT_eq_of_not_lt hbc2 h2
        subst this
        simp [hca] at h1
    · exact Bool.eq_false_iff.mpr hca⟩

instance : IsAntisymm String strLEp :=
  ⟨fun _ _ h1 h2 => strLT_eq_of_not_lt h2 h1⟩

theorem tup_total : ∀ x y : String × String, tupLE x y ∨ tupLE y x := by
  intro x y
  by_cases h1 : strLT x.1 y.1 = true
  · exact Or.inl (Or.inl h1)
  · by_cases h2 : strLT y.1 x.1 = true
    · exact Or.inr (Or.inl h2)
    · have e : x.1 = y.1 :=
        strLT_eq_of_not_lt (Bool.eq_false_iff.mpr h1) (Bool.eq_false_iff.mpr h2)
      by_cases h3 : strLT y.2 x.2 = true
      · exact Or.inr (Or.inr ⟨e.symm, strLT_asymm h3⟩)
      · exact Or.inl (Or.inr ⟨e, Bool.eq_false_iff.mpr h3⟩)

instance : IsTotal (String × String) tupLE := ⟨tup_total⟩

theorem tup_trans : ∀ x y z : String × String, tupLE x y → tupLE y z → tupLE x z := by
  intro x y z h1 h2
  rcases h1 with h1 | ⟨e1, l1⟩
  · rcases h2 with h2 | ⟨e2, _⟩
    · exact Or.inl (strLT_trans h1 h2)
    · exact Or.inl (e2 ▸ h1)
  · rcases h2 with h2 | ⟨e2, l2⟩
    · exact Or.inl (e1 ▸ h2)
    · refine Or.inr ⟨e1.trans e2, ?_⟩
      by_cases hc : strLT z.2 x.2 = true
      · by_cases hyz : strLT y.2 z.2 = true
        · have := strLT_trans hyz hc
          simp [this] at l1
        · have e : y.2 = z.2 := strLT_eq_of_not_lt (Bool.eq_false_iff.mpr hyz) l2
          rw [e] at l1
          simp [hc] at l1
      · exact Bool.eq_false_iff.mpr hc

instance : IsTrans (String × String) tupLE := ⟨tup_trans⟩

instance : IsAntisymm (String × String) tupLE :=
  ⟨by
    intro x y h1 h2
    rcases h1 with h1 | ⟨e1, l1⟩
    · rcases h2 with h2 | ⟨e2, _⟩
      · have := strLT_asymm h1
        simp [this] at h2
      · rw [e2] at h1
        simp [strLT_irrefl] at h1
    · rcases h2 with h2 | ⟨_, l2⟩
      · rw [e1] at h2
        simp [strLT_irrefl] at h2
      · have e2 : x.2 = y.2 := strLT_eq_of_not_lt l2 l1
        exact Prod.ext e1 e2⟩

instance : IsTotal MergedItem itemLE := ⟨fun a b => tup_total (keyOf a) (keyOf b)⟩

instance : IsTrans MergedItem itemLE := ⟨fun _ _ _ => tup_trans _ _ _⟩

theorem auth_total : ∀ x y : String × Nat, authLE x y ∨ authLE y x := by
  intro x y
  rcases Nat.lt_trichotomy x.2 y.2 with h | h | h
  · exact Or.inr (Or.inl h)
  · by_cases h3 : strLT y.1 x.1 = true
    · exact Or.inr (Or.inr ⟨h.symm, strLT_asymm h3⟩)
    · exact Or.inl (Or.inr ⟨h, Bool.eq_false_iff.mpr h3⟩)
  · exact Or.inl (Or.inl h)

instance : IsTotal (String × Nat) authLE := ⟨auth_total⟩

instance : IsTrans (String × Nat) authLE :=
  ⟨by
    intro x y z h1 h2
    rcases h1 with h1 | ⟨e1, l1⟩
    · rcases h2 with h2 | ⟨e2, _⟩
      · exact Or.inl (Nat.lt_trans h2 h1)
      · exact Or.inl (e2 ▸ h1)
    · rcases h2 with h2 | ⟨e2, l2⟩
      · exact Or.inl (e1 ▸ h2)
      · refine Or.inr ⟨e1.trans e2, ?_⟩
        by_cases hc : strLT z.1 x.1 = true
        · by_cases hyz : strLT y.1 z.1 = true
          · have := strLT_trans hyz hc
            simp [this] at l1
          · have e : y.1 = z.1 := strLT_eq_of_not_lt (Bool.eq_false_iff.mpr hyz) l2
            rw [e] at l1
            simp [hc] at l1
        · exact Bool.eq_false_iff.mpr hc⟩

instance : IsAntisymm (String × Nat) authLE :=
  ⟨by
    intro x y h1 h2
    rcases h1 with h1 | ⟨e1, l1⟩
    · rcases h2 with h2 | ⟨e2, _⟩
      · exact absurd (Nat.lt_trans h1 h2) (Nat.lt_irrefl _)
      · rw [e2] at h1; exact absurd h1 (Nat.lt_irrefl _)
    · rcases h2 with h2 | ⟨_, l2⟩
      · rw [e1] at h2; exact absurd h2 (Nat.lt_irrefl _)
      · exact Prod.ext (strLT_eq_of_not_lt l2 l1) e1⟩

/-! ## Association-list lemmas -/

theorem alookup_append {α : Type} (k : String) (m l : List (String × α)) :
    alookup k (m ++ l) =
      match alookup k m with
      | some v => some v
      | none => alookup k l := by
  induction m with
  | nil => simp [alookup]
  | cons p ps ih =>
    by_cases h : p.1 = k
    · simp [alookup, h]
    · simp [alookup, h, ih]

theorem alookup_eq_none_iff {α : Type} (k : String) (m : List (String × α)) :
    alookup k m = none ↔ k ∉ m.map Prod.fst := by
  induction m with
  | nil => simp [alookup]
  | cons p ps ih =>
    by_cases h : p.1 = k
    · simp [alookup, h]
    · simp [alookup, h, ih, Ne.symm h]

theorem alookup_map_update {α : Type} (k : String) (m : List (String × α))
    (f : α → α) :
    alookup k (m.map fun p => if p.1 = k then (p.1, f p.2) else p) =
      (alookup k m).map f := by
  induction m with
  | nil => simp [alookup]
  | cons p ps ih =>
    by_cases h : p.1 = k
    · simp [alookup, h]
    · simp [alookup, h, ih]

theorem alookup_map_update_other {α : Type} (k k2 : String) (m : List (String × α))
    (f : α → α) (hne : k2 ≠ k) :
    alookup k2 (m.map fun p => if p.1 = k then (p.1, f p.2) else p) =
      alookup k2 m := by
  induction m with
  | nil => simp [alookup]
  | cons p ps ih =>
    by_cases h : p.1 = k
    · have : p.1 ≠ k2 := by rw [h]; exact fun e => hne e.symm
      simp [alookup, h, this, Ne.symm hne, ih]
    · by_cases h2 : p.1 = k2
      · simp [alookup, h, h2, hne]
      · simp [alookup, h, h2, ih]

theorem map_update_keys {α : Type} (k : String) (m : List (String × α)) (f : α → α) :
    (m.map fun p => if p.1 = k then (p.1, f p.2) else p).map Prod.fst = m.map Prod.fst := by
  induction m with
  | nil => rfl
  | cons p ps ih =>
    by_cases h : p.1 = k
    · simp [h, ih]
    · simp [h, ih]

theorem mem_iff_alookup {α : Type} (m : List (String × α)) (hm : (m.map Prod.fst).Nodup)
    (a : String) (n : α) : (a, n) ∈ m ↔ alookup a m = some n := by
  induction m with
  | nil => simp [alookup]
  | cons p ps ih =>
    simp only [List.map_cons, List.nodup_cons] at hm
    constructor
    · intro h
      rcases List.mem_cons.mp h with h | h
      · simp [alookup, ← h]
      · have hne : p.1 ≠ a := by
          intro e
          apply hm.1
          rw [e]
          exact List.mem_map.mpr ⟨(a, n), h, rfl⟩
        simp [alookup, hne, (ih hm.2 ).mp h]
    · intro h
      by_cases he : p.1 = a
      · simp [alookup, he] at h
        exact List.mem_cons.mpr (Or.inl (Prod.ext he h).symm)
      · simp [alookup, he] at h
        exact List.mem_cons_of_mem _ ((ih hm.2 ).mpr h)

/-! ## Reconciler dedup lemmas -/

theorem dedupStep_skip (m : List (String × IdAcc)) (it : MergedItem)
    (h : it.arxiv_id = "") : dedupStep m it = m := by
  simp [dedupStep, h]

theorem dedupStep_miss (m : List (String × IdAcc)) (it : MergedItem)
    (h1 : it.arxiv_id ≠ "") (h2 : alookup it.arxiv_id m = none) :
    dedupStep m it =
      m ++ [(it.arxiv_id, ⟨it, if it.source = "" then [] else [it.source]⟩)] := by
  simp [dedupStep, h1, h2]

/-- The update applied to the stored state on a repeated identifier. -/
def updAcc (it : MergedItem) (a : IdAcc) : IdAcc :=
  ⟨a.item, if it.source = "" then a.sourceset else addSource it.source a.sourceset⟩

theorem dedupStep_hit (m : List (String × IdAcc)) (it : MergedItem) (a : IdAcc)
    (h1 : it.arxiv_id ≠ "") (h2 : alookup it.arxiv_id m = some a) :
    dedupStep m it =
      m.map fun p => if p.1 = it.arxiv_id then (p.1, updAcc it p.2) else p := by
  simp [dedupStep, h1, h2, updAcc]

theorem dedupStep_keys_nodup (m : List (String × IdAcc)) (it : MergedItem)
    (h : (m.map Prod.fst).Nodup) : ((dedupStep m it).map Prod.fst).Nodup := by
  by_cases h0 : it.arxiv_id = ""
  · rw [dedupStep_skip m it h0]; exact h
  · cases h2 : alookup it.arxiv_id m with
    | none =>
      rw [dedupStep_miss m it h0 h2]
      have hnot : it.arxiv_id ∉ m.map Prod.fst := (alookup_eq_none_iff _ m).mp h2
      simp [List.nodup_append, h, hnot]
    | some a =>
      rw [dedupStep_hit m it a h0 h2]
      rw [map_update_keys it.arxiv_id m (updAcc it)]
      exact h

theorem dedupFold_keys_nodup :
    ∀ (l : List MergedItem) (m : List (String × IdAcc)),
      (m.map Prod.fst).Nodup → ((l.foldl dedupStep m).map Prod.fst).Nodup := by
  intro l
  induction l with
  | nil => intro m h; exact h
  | cons r rs ih =>
    intro m h
    exact ih (dedupStep m r) (dedupStep_keys_nodup m r h)

theorem dedupMap_keys_nodup (l : List MergedItem) :
    ((dedupMap l).map Prod.fst).Nodup :=
  dedupFold_keys_nodup l [] (by simp)

/-- The invariant tying each dict key to its stored first-arriving item. -/
def keyItemOk (p : String × IdAcc) : Prop :=
  p.1 ≠ "" ∧ p.2.item.arxiv_id = p.1

theorem dedupStep_items_ok (m : List (String × IdAcc)) (it : MergedItem)
    (h : ∀ p ∈ m, keyItemOk p) : ∀ p ∈ dedupStep m it, keyItemOk p := by
  by_cases h0 : it.arxiv_id = ""
  · rw [dedupStep_skip m it h0]; exact h
  · cases h2 : alookup it.arxiv_id m with
    | none =>
      rw [dedupStep_miss m it h0 h2]
      intro p hp
      rcases List.mem_append.mp hp with hp | hp
      · exact h p hp
      · simp at hp
        rw [hp]
        exact ⟨h0, rfl⟩
    | some a =>
      rw [dedupStep_hit m it a h0 h2]
      intro p hp
      rcases List.mem_map.mp hp with ⟨q, hq, hqe⟩
      have hok := h q hq
      by_cases hq1 : q.1 = it.arxiv_id
      · rw [← hqe]
        simp only [hq1, if_pos]
        exact ⟨hq1 ▸ hok.1, by simp [updAcc, hok.2, hq1]⟩
      · rw [← hqe]
        simp only [hq1, if_false]
        exact hok

theorem dedupFold_items_ok :
    ∀ (l : List MergedItem) (m : List (String × IdAcc)),
      (∀ p ∈ m, keyItemOk p) → ∀ p ∈ l.foldl dedupStep m, keyItemOk p := by
  intro l
  induction l with
  | nil => intro m h; exact h
  | cons r rs ih =>
    intro m h
    exact ih (dedupStep m r) (dedupStep_items_ok m r h)

theorem dedupMap_items_ok (l : List MergedItem) : ∀ p ∈ dedupMap l, keyItemOk p :=
  dedupFold_items_ok l [] (by simp)

theorem dedupFold_skip_empty :
    ∀ (l : List MergedItem) (m : List (String × IdAcc)),
      (l.filter fun r => !(r.arxiv_id == "")).foldl dedupStep m = l.foldl dedupStep m := by
  intro l
  induction l with
  | nil => intro m; rfl
  | cons r rs ih =>
    intro m
    by_cases h : r.arxiv_id = ""
    · have hp : (!(r.arxiv_id == "")) = false := by simp [h]
      rw [List.filter_cons, hp]
      simp only [Bool.false_eq_true, if_false]
      rw [List.foldl_cons, dedupStep_skip m r h]
      exact ih m
    · have hp : (!(r.arxiv_id == "")) = true := by simp [h]
      rw [List.filter_cons, hp]
      simp only [if_true]
      rw [List.foldl_cons, List.foldl_cons]
      exact ih (dedupStep m r)

theorem reconcile_arxiv_ids (l : List MergedItem) :
    ((reconcile l).map MergedItem.arxiv_id).Nodup := by
  have hperm : List.Perm (reconcile l) ((dedupMap l).map renderAcc) :=
    List.perm_insertionSort itemLE _
  have hmap : ((dedupMap l).map renderAcc).map MergedItem.arxiv_id =
      (dedupMap l).map Prod.fst := by
    rw [List.map_map]
    apply List.map_congr_left
    intro p hp
    have := (dedupMap_items_ok l p hp).2
    simp [renderAcc, this]
  have h2 : ((reconcile l).map MergedItem.arxiv_id).Perm ((dedupMap l).map Prod.fst) := by
    rw [← hmap]
    exact hperm.map _
  exact (h2.nodup_iff).mpr (dedupMap_keys_nodup l)

/-- C10: every reconciled record keeps a non-empty identifier, and
candidates with an empty extracted identifier contribute nothing. -/
theorem c10_nonempty_identifier_invariant :
    ∀ l : List MergedItem,
      (∀ r ∈ reconcile l, r.arxiv_id ≠ "") ∧
      reconcile (l.filter fun r => !(r.arxiv_id == "")) = reconcile l := by
  intro l
  constructor
  · intro r hr
    have hperm : List.Perm (reconcile l) ((dedupMap l).map renderAcc) :=
      List.perm_insertionSort itemLE _
    have hr2 : r ∈ (dedupMap l).map renderAcc := hperm.mem_iff.mp hr
    rcases List.mem_map.mp hr2 with ⟨p, hp, hpe⟩
    have hok := dedupMap_items_ok l p hp
    rw [← hpe]
    simpa [renderAcc, hok.2] using hok.1
  · unfold reconcile dedupMap
    rw [dedupFold_skip_empty l []]

/-- C10 witness at a concrete one-record run. -/
theorem c10_witness :
    ({ source := "astro-ph", arxiv_id := "2512.00001", title := "T",
       authors := ["A"], link := "L" } : MergedItem).arxiv_id ≠ "" :=
  (c10_nonempty_identifier_invariant
    [{ source := "astro-ph", arxiv_id := "2512.00001", title := "T",
       authors := ["A"], link := "L" }]).1 _ (by decide)

/-! ## C5: revision exclusion -/

theorem filterMap_parseEntry_filter (dl : List DtDd) :
    dl.filterMap parseEntry =
      (dl.filter fun p => !(hasSub "(replaced)".data p.dt_text.data)).filterMap parseEntry := by
  induction dl with
  | nil => rfl
  | cons p ps ih =>
    by_cases h : hasSub "(replaced)".data p.dt_text.data = true
    · have hnone : parseEntry p = none := by simp [parseEntry, h]
      rw [List.filterMap_cons, hnone, List.filter_cons]
      simp only [h, Bool.not_true, Bool.false_eq_true, if_false]
      exact ih
    · have hb : hasSub "(replaced)".data p.dt_text.data = false := Bool.eq_false_iff.mpr h
      rw [List.filterMap_cons, List.filter_cons]
      simp only [hb, Bool.not_false, if_true, List.filterMap_cons]
      cases parseEntry p with
      | none => exact ih
      | some e => rw [ih]

/-- C5: an entry flagged `(replaced)` is dropped by the extractor, so
revision-flagged candidates never reach the match filter or any merged
batch: extraction is unchanged when those entries are removed up front. -/
theorem c5_revision_exclusion :
    (∀ p : DtDd, hasSub "(replaced)".data p.dt_text.data = true → parseEntry p = none) ∧
    ∀ dls : List (List DtDd),
      parse_all_entries dls =
        parse_all_entries (dls.map fun dl =>
          dl.filter fun p => !(hasSub "(replaced)".data p.dt_text.data)) := by
  constructor
  · intro p h
    simp [parseEntry, h]
  · intro dls
    unfold parse_all_entries
    induction dls with
    | nil => rfl
    | cons dl rest ih =>
      rw [List.map_cons, List.flatMap_cons, List.flatMap_cons, ih,
        ← filterMap_parseEntry_filter]

/-- C5 witness: a concrete `(replaced)` entry whose text matches the
keyword rule is still dropped. -/
theorem c5_witness :
    parseEntry
      { dt_text := "arXiv:2512.00001 (replaced)",
        absA := some { href := "/abs/2512.00001", text := "arXiv:2512.00001" },
        titleDiv := some "Title: Primordial Black Holes",
        authDiv := some ["A. Smith"],
        dd_text := "Primordial Black Holes abstract" } = none :=
  c5_revision_exclusion.1 _ (by decide)

/-! ## C7: date resolution fails loudly -/

/-- C7: when no heading carries the listing-date marker, or the marked
heading's text cannot be parsed as a date, `parse_listing_date` returns
the matching distinct error; when it succeeds, the returned day is
computed from the heading text alone — the current date is never
substituted. -/
theorem c7_date_resolution_fails_loudly :
    ∀ h3s : List String,
      ((∀ t ∈ h3s, hasSubCI markerLC t.data = false) →
        parse_listing_date h3s = .error .noHeader) ∧
      (∀ t, h3s.find? (fun s => hasSubCI markerLC s.data) = some t →
        extractAfter markerLC t.data = none →
        parse_listing_date h3s = .error (.badHeader t)) ∧
      (∀ t rest, h3s.find? (fun s => hasSubCI markerLC s.data) = some t →
        extractAfter markerLC t.data = some rest →
        strptimeADBY (String.mk (pyStripL rest)) = none →
        parse_listing_date h3s = .error (.badDate (String.mk (pyStripL rest)))) ∧
      (∀ d, parse_listing_date h3s = .ok d →
        ∃ t rest y mo dd,
          h3s.find? (fun s => hasSubCI markerLC s.data) = some t ∧
          extractAfter markerLC t.data = some rest ∧
          strptimeADBY (String.mk (pyStripL rest)) = some (y, mo, dd) ∧
          d = isoDate y mo dd) := by
  intro h3s
  refine ⟨?_, ?_, ?_, ?_⟩
  · intro hall
    have hnone : h3s.find? (fun s => hasSubCI markerLC s.data) = none :=
      List.find?_eq_none.mpr (fun x hx => by simp [hall x hx])
    simp [parse_listing_date, hnone]
  · intro t hf he
    simp [parse_listing_date, hf, he]
  · intro t rest hf he hs
    simp [parse_listing_date, hf, he, hs]
  · intro d hok
    unfold parse_listing_date at hok
    cases hf : h3s.find? (fun s => hasSubCI markerLC s.data) with
    | none => simp [hf] at hok
    | some t =>
      simp only [hf] at hok
      cases he : extractAfter markerLC t.data with
      | none => simp [he] at hok
      | some rest =>
        simp only [he] at hok
        cases hs : strptimeADBY (String.mk (pyStripL rest)) with
        | none => simp [hs] at hok
        | some ymd =>
          obtain ⟨y, mo, dd⟩ := ymd
          simp only [hs, Except.ok.injEq] at hok
          exact ⟨t, rest, y, mo, dd, rfl, he, hs, hok.symm⟩

/-- C7 witness: a page with no listing-date heading fails with the
distinct no-header error. -/
theorem c7_witness :
    parse_listing_date ["arXiv staff announcement"] = .error .noHeader :=
  (c7_date_resolution_fails_loudly ["arXiv staff announcement"]).1 (by decide)

/-! ## C1: dedup with first-source-wins merge -/

/-- C1: two candidates with the same non-empty identifier from two
different sources merge to exactly one record whose source string is the
sorted comma-join of both labels and whose remaining fields are the
first-arriving candidate's; in general, reconciled identifiers are
pairwise distinct. -/
theorem c1_dedup_first_source_wins :
    (∀ r1 r2 : MergedItem,
        r1.arxiv_id = r2.arxiv_id → r1.arxiv_id ≠ "" →
        r1.source ≠ "" → r2.source ≠ "" → r1.source ≠ r2.source →
        reconcile [r1, r2] =
          [{ source := joinSep ", " (List.insertionSort strLEp [r1.source, r2.source]),
             arxiv_id := r1.arxiv_id, title := r1.title, authors := r1.authors,
             link := r1.link }]) ∧
    ∀ l : List MergedItem, ((reconcile l).map MergedItem.arxiv_id).Nodup := by
  constructor
  · intro r1 r2 hid hk hs1 hs2 hne
    have hk2 : r2.arxiv_id ≠ "" := hid ▸ hk
    have hmem : r2.source ∉ [r1.source] := by
      simp only [List.mem_singleton]
      exact fun h => hne h.symm
    have hsort_ne : List.insertionSort strLEp [r1.source, r2.source] ≠ [] := by
      intro h
      have hl := (List.perm_insertionSort strLEp [r1.source, r2.source]).length_eq
      rw [h] at hl
      simp at hl
    have h1 : dedupMap [r1, r2] = [(r1.arxiv_id, ⟨r1, [r1.source, r2.source]⟩)] := by
      unfold dedupMap
      rw [List.foldl_cons, List.foldl_cons, List.foldl_nil]
      rw [dedupStep_miss [] r1 hk (by simp [alookup])]
      rw [dedupStep_hit _ r2 ⟨r1, if r1.source = "" then [] else [r1.source]⟩ hk2
        (by simp [alookup, hid])]
      simp [updAcc, hs1, hs2, addSource, hid, hmem]
      exact fun h => hne h.symm
    unfold reconcile
    rw [h1]
    simp only [List.map_cons, List.map_nil]
    have h2 : renderAcc (r1.arxiv_id, ⟨r1, [r1.source, r2.source]⟩) =
        { source := joinSep ", " (List.insertionSort strLEp [r1.source, r2.source]),
          arxiv_id := r1.arxiv_id, title := r1.title, authors := r1.authors,
          link := r1.link } := by
      simp only [renderAcc, renderSources]
      rw [if_neg hsort_ne]
    rw [h2]
    rfl
  · exact reconcile_arxiv_ids

/-- C1 witness: the spec's end-to-end example, one identifier reported by
both configured sources. -/
theorem c1_witness :
    reconcile
      [{ source := "astro-ph", arxiv_id := "2512.00001",
         title := "Primordial Black Hole Formation",
         authors := ["A. Smith", "B. Lee"], link := "L" },
       { source := "gr-qc", arxiv_id := "2512.00001",
         title := "Primordial Black Hole Formation (v2)",
         authors := ["A. Smith"], link := "L2" }] =
      [{ source := joinSep ", "
           (List.insertionSort strLEp ["astro-ph", "gr-qc"]),
         arxiv_id := "2512.00001", title := "Primordial Black Hole Formation",
         authors := ["A. Smith", "B. Lee"], link := "L" }] :=
  c1_dedup_first_source_wins.1 _ _ (by decide) (by decide) (by decide) (by decide)
    (by decide)

/-! ## Archive store lemmas -/

theorem alookup_write_update {α : Type} (d : String) (v : α) :
    ∀ m : List (String × α), alookup d m ≠ none →
      alookup d (m.map fun p => if p.1 = d then (d, v) else p) = some v := by
  intro m
  induction m with
  | nil => intro h; exact absurd rfl h
  | cons p ps ih =>
    intro h
    by_cases hp : p.1 = d
    · simp [alookup, hp]
    · have h2 : alookup d ps ≠ none := by
        intro hn
        apply h
        simp [alookup, hp, hn]
      simp [alookup, hp, ih h2]

theorem alookup_write_update_other {α : Type} (d d2 : String) (v : α) (hne : d2 ≠ d) :
    ∀ m : List (String × α),
      alookup d2 (m.map fun p => if p.1 = d then (d, v) else p) = alookup d2 m := by
  intro m
  induction m with
  | nil => simp [alookup]
  | cons p ps ih =>
    by_cases hp : p.1 = d
    · have hd : d ≠ d2 := fun e => hne e.symm
      simp [alookup, hp, hd, ih]
    · by_cases hp2 : p.1 = d2
      · simp [alookup, hp, hp2, hne]
      · simp [alookup, hp, hp2, ih]

theorem load_write_self (store : Store) (d : String) (v : List MergedItem) :
    load_json (write_json store d v) d = some v := by
  unfold load_json write_json
  by_cases h : (alookup d store).isSome = true
  · rw [if_pos h]
    apply alookup_write_update
    intro hn
    rw [hn] at h
    simp at h
  · rw [if_neg h]
    have hnone : alookup d store = none := by
      cases he : alookup d store with
      | none => rfl
      | some w => rw [he] at h; simp at h
    rw [alookup_append]
    rw [hnone]
    simp [alookup]

theorem load_write_other (store : Store) (d d2 : String) (v : List MergedItem)
    (hne : d2 ≠ d) : load_json (write_json store d v) d2 = load_json store d2 := by
  unfold load_json write_json
  by_cases h : (alookup d store).isSome = true
  · rw [if_pos h]
    exact alookup_write_update_other d d2 v hne store
  · rw [if_neg h]
    rw [alookup_append]
    cases he : alookup d2 store with
    | none => simp [alookup, Ne.symm hne]
    | some w => rfl

/-! ## Shape of a successful run -/

theorem runMain_ok_shape (store : Store) (fetched : List (String × Except Unit SourceDoc))
    (out : RunOutcome) (h : runMain store fetched = .ok out) :
    ∃ parsed, resolveAll fetched = .ok parsed ∧ parsed ≠ [] ∧
      out.day = listMax (parsed.map fun q => q.2.1) ∧
      ((out.store = store ∧ out.writes = [] ∧
        load_json store out.day = some (reconcile (mergedRawOf out.day parsed))) ∨
       (load_json store out.day ≠ some (reconcile (mergedRawOf out.day parsed)) ∧
        out.store = write_json store out.day (reconcile (mergedRawOf out.day parsed)))) := by
  unfold runMain at h
  cases hr : resolveAll fetched with
  | error e => rw [hr] at h; simp at h
  | ok parsed =>
    rw [hr] at h
    cases parsed with
    | nil => simp at h
    | cons p ps =>
      simp only at h
      by_cases hload :
          load_json store (listMax ((p :: ps).map fun q => q.2.1)) =
            some (reconcile (mergedRawOf (listMax ((p :: ps).map fun q => q.2.1)) (p :: ps)))
      · rw [if_pos hload] at h
        simp only [Except.ok.injEq] at h
        subst h
        exact ⟨p :: ps, rfl, by simp, rfl, Or.inl ⟨rfl, rfl, hload⟩⟩
      · rw [if_neg hload] at h
        simp only [Except.ok.injEq] at h
        subst h
        exact ⟨p :: ps, rfl, by simp, rfl, Or.inr ⟨hload, rfl⟩⟩

/-! ## C2: no-op idempotence -/

/-- C2: when the computed batch equals what is persisted at the target
day, the run writes nothing and stores nothing new; consequently a second
run over the same fetched documents writes nothing and leaves the archive
exactly as the first run left it. -/
theorem c2_noop_idempotence :
    (∀ (store : Store) (fetched : List (String × Except Unit SourceDoc)) parsed,
        resolveAll fetched = .ok parsed → parsed ≠ [] →
        load_json store (listMax (parsed.map fun q => q.2.1)) =
          some (reconcile (mergedRawOf (listMax (parsed.map fun q => q.2.1)) parsed)) →
        runMain store fetched =
          .ok ⟨listMax (parsed.map fun q => q.2.1), store, []⟩) ∧
    (∀ (store : Store) (fetched : List (String × Except Unit SourceDoc))
        (out : RunOutcome), runMain store fetched = .ok out →
        runMain out.store fetched = .ok ⟨out.day, out.store, []⟩) := by
  constructor
  · intro store fetched parsed hr hne hload
    unfold runMain
    rw [hr]
    cases parsed with
    | nil => exact absurd rfl hne
    | cons p ps =>
      simp only
      rw [if_pos hload]
  · intro store fetched out h
    obtain ⟨parsed, hr, hne, hday, hcase⟩ := runMain_ok_shape store fetched out h
    have hload2 : load_json out.store out.day =
        some (reconcile (mergedRawOf out.day parsed)) := by
      rcases hcase with ⟨hs, _, hl⟩ | ⟨_, hs⟩
      · rw [hs]; exact hl
      · rw [hs]; exact load_write_self store out.day _
    unfold runMain
    rw [hr]
    cases parsed with
    | nil => exact absurd rfl hne
    | cons p ps =>
      simp only
      rw [← hday]
      rw [if_pos hload2]

/-! ## C6: cross-source date exclusion -/

theorem listMax_ge_seed : ∀ (l : List String) (cur : String),
    strLT (l.foldl (fun cur d => if strLT cur d then d else cur) cur) cur = false := by
  intro l
  induction l with
  | nil => intro cur; exact strLT_irrefl cur
  | cons y ys ih =>
    intro cur
    rw [List.foldl_cons]
    have h1 := ih (if strLT cur y then y else cur)
    have h2 : strLT (if strLT cur y then y else cur) cur = false := by
      by_cases hy : strLT cur y = true
      · rw [if_pos hy]; exact strLT_asymm hy
      · rw [if_neg hy]; exact strLT_irrefl cur
    exact IsTrans.trans (r := strLEp) _ _ _ h2 h1

theorem listMax_ub : ∀ (l : List String) (cur x : String), x ∈ l →
    strLT (l.foldl (fun cur d => if strLT cur d then d else cur) cur) x = false := by
  intro l
  induction l with
  | nil => intro cur x hx; cases hx
  | cons y ys ih =>
    intro cur x hx
    rw [List.foldl_cons]
    rcases List.mem_cons.mp hx with hx | hx
    · subst hx
      have h1 := listMax_ge_seed ys (if strLT cur x then x else cur)
      have h2 : strLT (if strLT cur x then x else cur) x = false := by
        by_cases hy : strLT cur x = true
        · rw [if_pos hy]; exact strLT_irrefl x
        · rw [if_neg hy]; exact Bool.eq_false_iff.mpr hy
      exact IsTrans.trans (r := strLEp) _ _ _ h2 h1
    · exact ih _ x hx

theorem listMax_mem_or_seed : ∀ (l : List String) (cur : String),
    l.foldl (fun cur d => if strLT cur d then d else cur) cur = cur ∨
    l.foldl (fun cur d => if strLT cur d then d else cur) cur ∈ l := by
  intro l
  induction l with
  | nil => intro cur; exact Or.inl rfl
  | cons y ys ih =>
    intro cur
    rw [List.foldl_cons]
    by_cases hy : strLT cur y = true
    · rw [if_pos hy]
      rcases ih y with h | h
      · exact Or.inr (by rw [h]; exact List.mem_cons_self y ys)
      · exact Or.inr (List.mem_cons_of_mem y h)
    · rw [if_neg hy]
      rcases ih cur with h | h
      · exact Or.inl h
      · exact Or.inr (List.mem_cons_of_mem y h)

theorem strLT_empty_false_iff (d : String) : strLT "" d = false ↔ d = "" := by
  constructor
  · intro h
    cases d with
    | mk data =>
      cases data with
      | nil => rfl
      | cons c cs => simp [strLT, listLexLT] at h
  · intro h
    rw [h]
    exact strLT_irrefl ""

theorem listMax_mem (l : List String) (h : l ≠ []) : listMax l ∈ l := by
  rcases listMax_mem_or_seed l "" with he | hm
  · cases l with
    | nil => exact absurd rfl h
    | cons d ds =>
      have hub : strLT (listMax (d :: ds)) d = false :=
        listMax_ub (d :: ds) "" d (List.mem_cons_self d ds)
      have hlm : listMax (d :: ds) = "" := he
      rw [hlm] at hub
      have hd : d = "" := (strLT_empty_false_iff d).mp hub
      rw [hlm, ← hd]
      exact List.mem_cons_self d ds
  · exact hm

/-- C6: the target day is the maximum of all resolved dates (it is one of
them and bounds them all), sources resolving to any other day contribute
no records, and no batch at any other day is created or modified. -/
theorem c6_cross_source_date_exclusion :
    (∀ (latest : String) (parsed : List (String × String × List RawItem)),
        mergedRawOf latest parsed =
          mergedRawOf latest (parsed.filter fun q => q.2.1 == latest)) ∧
    (∀ (parsed : List (String × String × List RawItem)) (q : String × String × List RawItem),
        q ∈ parsed →
        strLT (listMax (parsed.map fun q => q.2.1)) q.2.1 = false) ∧
    (∀ parsed : List (String × String × List RawItem), parsed ≠ [] →
        listMax (parsed.map fun q => q.2.1) ∈ parsed.map fun q => q.2.1) ∧
    (∀ (store : Store) (fetched : List (String × Except Unit SourceDoc))
        (out : RunOutcome) (d : String), runMain store fetched = .ok out →
        d ≠ out.day → load_json out.store d = load_json store d) := by
  refine ⟨?_, ?_, ?_, ?_⟩
  · intro latest parsed
    induction parsed with
    | nil => rfl
    | cons q rest ih =>
      rw [List.filter_cons]
      by_cases hq : q.2.1 = latest
      · have hb : (q.2.1 == latest) = true := by simp [hq]
        rw [hb]
        simp only [if_true]
        unfold mergedRawOf
        rw [List.flatMap_cons, List.flatMap_cons]
        unfold mergedRawOf at ih
        rw [ih]
      · have hb : (q.2.1 == latest) = false := by simp [hq]
        rw [hb]
        simp only [Bool.false_eq_true, if_false]
        unfold mergedRawOf
        rw [List.flatMap_cons]
        rw [if_neg hq]
        unfold mergedRawOf at ih
        rw [ih]
        rfl
  · intro parsed q hq
    exact listMax_ub _ "" q.2.1 (List.mem_map.mpr ⟨q, hq, rfl⟩)
  · intro parsed hne
    apply listMax_mem
    intro h
    apply hne
    cases parsed with
    | nil => rfl
    | cons p ps => simp at h
  · intro store fetched out d h hne
    obtain ⟨parsed, _, _, _, hcase⟩ := runMain_ok_shape store fetched out h
    rcases hcase with ⟨hs, _, _⟩ | ⟨_, hs⟩
    · rw [hs]
    · rw [hs]
      exact load_write_other store out.day d _ hne

/-! ## C9: failure atomicity -/

theorem resolveSource_fails (p : String × Except Unit SourceDoc)
    (h : (∃ u, p.2 = .error u) ∨
      (∃ doc e, p.2 = .ok doc ∧ parse_listing_date doc.h3s = .error e)) :
    ∃ e, resolveSource p = .error e := by
  rcases h with ⟨u, hu⟩ | ⟨doc, e, hdoc, herr⟩
  · exact ⟨.fetch p.1, by simp [resolveSource, hu]⟩
  · exact ⟨.date p.1 e, by simp [resolveSource, hdoc, herr]⟩

theorem resolveAll_fails :
    ∀ fetched : List (String × Except Unit SourceDoc),
      (∃ p ∈ fetched, (∃ u, p.2 = .error u) ∨
        (∃ doc e, p.2 = .ok doc ∧ parse_listing_date doc.h3s = .error e)) →
      ∃ e, resolveAll fetched = .error e := by
  intro fetched
  induction fetched with
  | nil => intro h; rcases h with ⟨p, hp, _⟩; cases hp
  | cons q qs ih =>
    intro h
    rcases h with ⟨p, hp, hfail⟩
    rcases List.mem_cons.mp hp with hp | hp
    · subst hp
      obtain ⟨e, he⟩ := resolveSource_fails p hfail
      exact ⟨e, by simp [resolveAll, he]⟩
    · cases hq : resolveSource q with
      | error e => exact ⟨e, by simp [resolveAll, hq]⟩
      | ok v =>
        obtain ⟨e, he⟩ := ih ⟨p, hp, hfail⟩
        exact ⟨e, by simp [resolveAll, hq, he]⟩

/-- C9: if any configured source fails to fetch or fails date resolution,
the run aborts with an error before anything is persisted (an aborted run
produces no outcome: no batch write, no page write). -/
theorem c9_failure_atomicity :
    ∀ (store : Store) (fetched : List (String × Except Unit SourceDoc)),
      (∃ p ∈ fetched, (∃ u, p.2 = .error u) ∨
        (∃ doc e, p.2 = .ok doc ∧ parse_listing_date doc.h3s = .error e)) →
      ∃ e, runMain store fetched = .error e := by
  intro store fetched h
  obtain ⟨e, he⟩ := resolveAll_fails fetched h
  exact ⟨e, by simp [runMain, he]⟩

/-! ## Concrete run fixtures for witnesses -/

/-- One concrete `<dt>/<dd>` pair. -/
def exEntry : DtDd :=
  { dt_text := "arXiv:2512.00001",
    absA := some { href := "/abs/2512.00001", text := "arXiv:2512.00001" },
    titleDiv := some "Title: Primordial Black Holes",
    authDiv := some ["A. Smith"],
    dd_text := "Primordial Black Holes abstract" }

/-- A fetched astro-ph page dated Friday, 12 December 2025. -/
def exDocA : SourceDoc :=
  { h3s := ["Showing new listings for Friday, 12 December 2025"],
    dls := [[exEntry]] }

/-- A stale gr-qc page dated one day earlier, with no entries. -/
def exDocB : SourceDoc :=
  { h3s := ["Showing new listings for Thursday, 11 December 2025"], dls := [] }

/-- A two-source fetch result in configured order. -/
def exFetched : List (String × Except Unit SourceDoc) :=
  [("astro-ph", .ok exDocA), ("gr-qc", .ok exDocB)]

/-- The batch the concrete run computes. -/
def exMerged : List MergedItem :=
  [{ source := "astro-ph", arxiv_id := "2512.00001",
     title := "Primordial Black Holes", authors := ["A. Smith"],
     link := "https://arxiv.org/abs/2512.00001" }]

/-- The stats of the concrete run. -/
def exStats : Stats := ⟨1, 1, [("A. Smith", 1)]⟩

/-- The outcome of the concrete run from an empty archive. -/
def exOut : RunOutcome :=
  { day := "2025-12-12", store := [("2025-12-12", exMerged)],
    writes := [.batch "2025-12-12" exMerged,
               .page ⟨"2025-12-12", exMerged, exStats, ["2025-12-12"]⟩,
               .nojekyll] }

instance {e a : Type} [DecidableEq e] [DecidableEq a] : DecidableEq (Except e a) :=
  fun x y =>
    match x, y with
    | .error u, .error v =>
      if h : u = v then isTrue (by rw [h]) else isFalse (fun he => h (Except.error.inj he))
    | .ok u, .ok v =>
      if h : u = v then isTrue (by rw [h]) else isFalse (fun he => h (Except.ok.inj he))
    | .error _, .ok _ => isFalse (fun he => Except.noConfusion he)
    | .ok _, .error _ => isFalse (fun he => Except.noConfusion he)

/-- C2 witness: re-running over the same fetched documents from the store
the first run produced writes nothing. -/
theorem c2_witness :
    runMain exOut.store exFetched = .ok ⟨exOut.day, exOut.store, []⟩ :=
  c2_noop_idempotence.2 [] exFetched exOut (by decide)

/-- C6 witness: the run over `exFetched` leaves the stale day's slot
untouched. -/
theorem c6_witness :
    load_json exOut.store "2025-12-11" = load_json ([] : Store) "2025-12-11" :=
  c6_cross_source_date_exclusion.2.2.2 [] exFetched exOut "2025-12-11"
    (by decide) (by decide)

/-- C9 witness: one failed fetch aborts the whole run. -/
theorem c9_witness :
    ∃ e, runMain ([] : Store) [("astro-ph", (.error () : Except Unit SourceDoc))] = .error e :=
  c9_failure_atomicity [] [("astro-ph", (.error () : Except Unit SourceDoc))]
    ⟨("astro-ph", .error ()), List.mem_singleton.mpr rfl, Or.inl ⟨(), rfl⟩⟩

/-! ## C8: statistics consistency -/

/-- Modelled from the claim's words: every author string of every record
of every listed batch, in order. -/
def allAuthors (store : Store) (days : List String) : List String :=
  days.flatMap fun d => ((load_json store d).getD []).flatMap fun it => it.authors

theorem write_update_keys {α : Type} (d : String) (v : α) :
    ∀ m : List (String × α),
      ((m.map fun p => if p.1 = d then (d, v) else p).map Prod.fst) = m.map Prod.fst := by
  intro m
  induction m with
  | nil => rfl
  | cons p ps ih =>
    by_cases h : p.1 = d
    · simp only [List.map_cons, ih, h, if_pos]
    · simp only [List.map_cons, ih, h, if_false]

theorem bump_lookup_self (m : List (String × Nat)) (a : String) :
    alookup a (bump m a) = some ((alookup a m).getD 0 + 1) := by
  unfold bump
  cases h : alookup a m with
  | none =>
    rw [alookup_append, h]
    simp [alookup]
  | some n =>
    have : alookup a m ≠ none := by rw [h]; simp
    rw [alookup_write_update a (n + 1) m this]
    simp

theorem bump_lookup_other (m : List (String × Nat)) (a b : String) (hne : b ≠ a) :
    alookup b (bump m a) = alookup b m := by
  unfold bump
  cases h : alookup a m with
  | none =>
    rw [alookup_append]
    cases hb : alookup b m with
    | none => simp [alookup, Ne.symm hne]
    | some w => rfl
  | some n => exact alookup_write_update_other a b (n + 1) hne m

theorem bump_keys_nodup (m : List (String × Nat)) (a : String)
    (h : (m.map Prod.fst).Nodup) : ((bump m a).map Prod.fst).Nodup := by
  unfold bump
  cases hl : alookup a m with
  | none =>
    have hnot : a ∉ m.map Prod.fst := (alookup_eq_none_iff _ m).mp hl
    simp [List.nodup_append, h, hnot]
  | some n =>
    rw [write_update_keys]
    exact h

theorem foldl_bump_lookup :
    ∀ (l : List String) (m : List (String × Nat)) (a : String),
      alookup a (l.foldl bump m) =
        match alookup a m with
        | some n => some (n + l.count a)
        | none => if l.count a = 0 then none else some (l.count a) := by
  intro l
  induction l with
  | nil =>
    intro m a
    cases h : alookup a m <;> simp [h]
  | cons x xs ih =>
    intro m a
    rw [List.foldl_cons]
    rw [ih (bump m x) a]
    by_cases hax : a = x
    · subst hax
      rw [bump_lookup_self m a]
      cases h : alookup a m with
      | none =>
        simp only [h, Option.getD_none, Nat.zero_add]
        have hc : (a :: xs).count a = xs.count a + 1 := by simp [List.count_cons]
        rw [hc]
        have hnz : xs.count a + 1 ≠ 0 := Nat.succ_ne_zero _
        simp [hnz, Nat.add_comm]
      | some n =>
        simp only [h]
        have hc : (a :: xs).count a = xs.count a + 1 := by simp [List.count_cons]
        rw [hc]
        simp only [Option.getD_some, Option.some.injEq]
        omega
    · rw [bump_lookup_other m x a hax]
      have hxa : (x == a) = false := by
        simp only [beq_eq_false_iff_ne, ne_eq]
        exact fun h => hax h.symm
      have hc : (x :: xs).count a = xs.count a := by
        rw [List.count_cons, hxa]
        simp
      rw [hc]

theorem foldl_bump_keys_nodup :
    ∀ (l : List String) (m : List (String × Nat)),
      (m.map Prod.fst).Nodup → ((l.foldl bump m).map Prod.fst).Nodup := by
  intro l
  induction l with
  | nil => intro m h; exact h
  | cons x xs ih =>
    intro m h
    exact ih (bump m x) (bump_keys_nodup m x h)

theorem alookup_map_self (f : String → Nat) :
    ∀ (xs : List String) (a : String), xs.Nodup →
      alookup a (xs.map fun x => (x, f x)) = if a ∈ xs then some (f a) else none := by
  intro xs
  induction xs with
  | nil => intro a _; simp [alookup]
  | cons x rest ih =>
    intro a hn
    rw [List.map_cons]
    by_cases h : x = a
    · subst h
      simp [alookup]
    · have := ih a (List.nodup_cons.mp hn).2
      simp [alookup, h, this, Ne.symm h]

theorem authorDict_perm_spec (al : List String) :
    List.Perm (al.foldl bump [])
      (al.dedup.map fun a => (a, al.count a)) := by
  have hk1 : ((al.foldl bump []).map Prod.fst).Nodup :=
    foldl_bump_keys_nodup al [] (by simp)
  have hkeys2 : ((al.dedup.map fun a => (a, al.count a)).map Prod.fst) = al.dedup := by
    rw [List.map_map]
    rw [show (Prod.fst ∘ fun a => (a, al.count a)) = id from rfl]
    exact List.map_id _
  have hk2 : ((al.dedup.map fun a => (a, al.count a)).map Prod.fst).Nodup := by
    rw [hkeys2]
    exact al.nodup_dedup
  apply List.perm_of_nodup_nodup_toFinset_eq
  · exact List.Nodup.of_map Prod.fst hk1
  · exact List.Nodup.of_map Prod.fst hk2
  · apply Finset.ext
    intro pr
    obtain ⟨a, n⟩ := pr
    simp only [List.mem_toFinset]
    rw [mem_iff_alookup _ hk1, mem_iff_alookup _ hk2]
    rw [foldl_bump_lookup al [] a]
    rw [alookup_map_self (fun x => al.count x) al.dedup a al.nodup_dedup]
    simp only [alookup]
    by_cases hmem : a ∈ al
    · have hpos : ¬ al.count a = 0 := by
        have := List.count_pos_iff.mpr hmem
        omega
      simp [hpos, List.mem_dedup, hmem]
    · have hz : al.count a = 0 := by
        by_contra hnz
        exact hmem (List.count_pos_iff.mp (Nat.pos_of_ne_zero hnz))
      simp [hz, List.mem_dedup, hmem]

theorem foldl_authors_flat (items : List MergedItem) :
    ∀ m, items.foldl (fun m it => it.authors.foldl bump m) m =
      (items.flatMap fun it => it.authors).foldl bump m := by
  induction items with
  | nil => intro m; rfl
  | cons it rest ih =>
    intro m
    rw [List.foldl_cons, List.flatMap_cons, List.foldl_append]
    exact ih _

theorem foldl_days_flat (store : Store) :
    ∀ (days : List String) (m : List (String × Nat)),
      days.foldl (fun m d =>
        ((load_json store d).getD []).foldl (fun m it => it.authors.foldl bump m) m) m =
      (allAuthors store days).foldl bump m := by
  intro days
  induction days with
  | nil => intro m; rfl
  | cons d rest ih =>
    intro m
    rw [List.foldl_cons]
    unfold allAuthors
    rw [List.flatMap_cons, List.foldl_append]
    rw [foldl_authors_flat]
    exact ih _

theorem compute_fold_fst (store : Store) :
    ∀ (days : List String) (n : Nat) (m : List (String × Nat)),
      (days.foldl (fun (acc : Nat × List (String × Nat)) d =>
        let items := (load_json store d).getD []
        (acc.1 + items.length,
         items.foldl (fun m it => it.authors.foldl bump m) acc.2)) (n, m)).1 =
      n + (days.map fun d => ((load_json store d).getD []).length).sum := by
  intro days
  induction days with
  | nil => intro n m; simp
  | cons d rest ih =>
    intro n m
    rw [List.foldl_cons, List.map_cons, List.sum_cons]
    rw [ih]
    omega

theorem compute_fold_snd (store : Store) :
    ∀ (days : List String) (n : Nat) (m : List (String × Nat)),
      (days.foldl (fun (acc : Nat × List (String × Nat)) d =>
        let items := (load_json store d).getD []
        (acc.1 + items.length,
         items.foldl (fun m it => it.authors.foldl bump m) acc.2)) (n, m)).2 =
      days.foldl (fun m d =>
        ((load_json store d).getD []).foldl (fun m it => it.authors.foldl bump m) m) m := by
  intro days
  induction days with
  | nil => intro n m; rfl
  | cons d rest ih =>
    intro n m
    rw [List.foldl_cons, List.foldl_cons]
    exact ih _ _

/-- C8: the aggregated total equals the sum of the listed batches' record
counts, and the leaderboard is the per-author occurrence count over every
author string of every listed record, sorted by count descending then
name ascending, truncated to 30. -/
theorem c8_stats_consistency :
    ∀ (store : Store) (days : List String),
      (compute_stats store days).total_papers =
        (days.map fun d => ((load_json store d).getD []).length).sum ∧
      (compute_stats store days).top_authors =
        (List.insertionSort authLE
          ((allAuthors store days).dedup.map fun a =>
            (a, (allAuthors store days).count a))).take 30 := by
  intro store days
  constructor
  · unfold compute_stats
    simp only
    rw [compute_fold_fst store days 0 []]
    simp
  · unfold compute_stats
    simp only
    rw [compute_fold_snd store days 0 []]
    rw [foldl_days_flat store days []]
    congr 1
    apply List.eq_of_perm_of_sorted (r := authLE)
    · exact ((List.perm_insertionSort authLE _).trans
        (authorDict_perm_spec _)).trans (List.perm_insertionSort authLE _).symm
    · exact List.sorted_insertionSort authLE _
    · exact List.sorted_insertionSort authLE _

/-! ## C4: filter soundness -/

theorem matchP1_phrase (t : List Char) :
    matchP1 ("Primordial Black Holes".data ++ t) = true := rfl

theorem searchRec_of_matchP1 :
    ∀ (xs : List Char) (prev : Option Char) (c : Char) (cs : List Char),
      matchP1 (c :: cs) = true → searchRec prev (xs ++ (c :: cs)) = true := by
  intro xs
  induction xs with
  | nil =>
    intro prev c cs h
    rw [List.nil_append]
    unfold searchRec
    rw [h]
    rfl
  | cons x rest ih =>
    intro prev c cs h
    rw [List.cons_append]
    unfold searchRec
    rw [ih (some x) c cs h]
    simp

theorem foldl_last (xs : List Char) (prev : Option Char) :
    xs.foldl (fun _ c => some c) prev =
      match xs.getLast? with
      | some c => some c
      | none => prev := by
  induction xs using List.reverseRecOn with
  | nil => rfl
  | append_singleton ys c _ =>
    rw [List.foldl_append]
    simp [List.getLast?_concat]

theorem searchRec_extend :
    ∀ (xs : List Char) (prev : Option Char) (t : List Char),
      searchRec (xs.foldl (fun _ c => some c) prev) t = true →
      searchRec prev (xs ++ t) = true := by
  intro xs
  induction xs with
  | nil => intro prev t h; exact h
  | cons x rest ih =>
    intro prev t h
    rw [List.foldl_cons] at h
    rw [List.cons_append]
    cases t with
    | nil => simp [searchRec] at h
    | cons c cs =>
      unfold searchRec
      rw [ih (some x) (c :: cs) h]
      simp

theorem matchP2_token (prev : Option Char) (u : List Char)
    (hprev : ∀ c, prev = some c → isWordChar c = false)
    (hbnd : ∀ c, u.head? = some c → isWordChar c = false) :
    matchP2 prev ("PBH".data ++ u) = true := by
  have hstrip : stripLit "pbh".data ("PBH".data ++ u) = some u := rfl
  have hrest : (match stripLit "pbh".data ("PBH".data ++ u) with
      | none => false
      | some r =>
        match r with
        | [] => true
        | c :: cs => if (!isWordChar c) = true then true else if lc c = 's' then boundaryOk cs else false) = true := by
    rw [hstrip]
    cases u with
    | nil => rfl
    | cons c cs => simp [hbnd c rfl]
  cases prev with
  | none =>
    unfold matchP2
    rw [hrest]
    rfl
  | some p0 =>
    have hw := hprev p0 rfl
    unfold matchP2
    rw [hrest]
    simp [hw]

theorem matchP2_tokenS (prev : Option Char) (u : List Char)
    (hprev : ∀ c, prev = some c → isWordChar c = false)
    (hbnd : ∀ c, u.head? = some c → isWordChar c = false) :
    matchP2 prev ("pbhs".data ++ u) = true := by
  have hstrip : stripLit "pbh".data ("pbhs".data ++ u) = some ('s' :: u) := rfl
  have hbok : boundaryOk u = true := by
    cases u with
    | nil => rfl
    | cons c cs => simp [boundaryOk, hbnd c rfl]
  have hrest : (match stripLit "pbh".data ("pbhs".data ++ u) with
      | none => false
      | some r =>
        match r with
        | [] => true
        | c :: cs => if (!isWordChar c) = true then true else if lc c = 's' then boundaryOk cs else false) = true := by
    rw [hstrip]
    have hw : isWordChar 's' = true := by decide
    have hlc : lc 's' = 's' := by decide
    simp [hw, hlc, hbok]
  cases prev with
  | none =>
    unfold matchP2
    rw [hrest]
    rfl
  | some p0 =>
    have hw := hprev p0 rfl
    unfold matchP2
    rw [hrest]
    simp [hw]

theorem stripLit_sound :
    ∀ (p l r : List Char), stripLit p l = some r → l.map lc = p ++ r.map lc := by
  intro p
  induction p with
  | nil =>
    intro l r h
    simp [stripLit] at h
    rw [h]
    rfl
  | cons p0 ps ih =>
    intro l r h
    cases l with
    | nil => simp [stripLit] at h
    | cons c cs =>
      unfold stripLit at h
      by_cases hc : lc c = p0
      · rw [if_pos hc] at h
        rw [List.map_cons, ih cs r h, hc]
        rfl
      · rw [if_neg hc] at h
        cases h

theorem stripLit_drop :
    ∀ (p l r : List Char), stripLit p l = some r → r = l.drop p.length := by
  intro p
  induction p with
  | nil =>
    intro l r h
    simp [stripLit] at h
    rw [h]
    rfl
  | cons p0 ps ih =>
    intro l r h
    cases l with
    | nil => simp [stripLit] at h
    | cons c cs =>
      unfold stripLit at h
      by_cases hc : lc c = p0
      · rw [if_pos hc] at h
        rw [List.length_cons, List.drop_succ_cons]
        exact ih cs r h
      · rw [if_neg hc] at h
        cases h

theorem hasPre_append (p b : List Char) : hasPre p (p ++ b) = true := by
  induction p with
  | nil => rfl
  | cons c cs ih => simp [hasPre, ih]

theorem hasSub_of_split :
    ∀ (a p b : List Char), hasSub p (a ++ (p ++ b)) = true := by
  intro a p b
  induction a with
  | nil =>
    cases hp : p with
    | nil => cases b <;> simp [hasSub, hasPre]
    | cons q qs =>
      rw [List.nil_append]
      rw [show (q :: qs) ++ b = q :: (qs ++ b) from rfl]
      unfold hasSub
      rw [show q :: (qs ++ b) = (q :: qs) ++ b from rfl, hasPre_append]
      rfl
  | cons x rest ih =>
    rw [List.cons_append]
    unfold hasSub
    rw [ih]
    simp

/-- A whole-word occurrence of `pbh`/`pbhs` at the split point, stated
from the spec's words. -/
def pbhTokenAtP (a b : List Char) : Prop :=
  (∀ c, a.getLast? = some c → isWordChar c = false) ∧
  (((b.map lc).take 3 = "pbh".data ∧
      ∀ c, (b.drop 3).head? = some c → isWordChar c = false) ∨
   ((b.map lc).take 4 = "pbhs".data ∧
      ∀ c, (b.drop 4).head? = some c → isWordChar c = false))

/-- Executable version of `pbhTokenAtP`. -/
def pbhTokenAt (a b : List Char) : Bool :=
  (match a.getLast? with
   | none => true
   | some c => !isWordChar c) &&
  ((((b.map lc).take 3 == "pbh".data) &&
    (match (b.drop 3).head? with
     | none => true
     | some c => !isWordChar c)) ||
   (((b.map lc).take 4 == "pbhs".data) &&
    (match (b.drop 4).head? with
     | none => true
     | some c => !isWordChar c)))

/-- Modelled from the spec's words: the text contains the literal token
`PBH` or `PBHs` as a whole word (case-insensitively), at some position. -/
def hasPBHTokenB (s : String) : Bool :=
  (List.range (s.data.length + 1)).any fun i =>
    pbhTokenAt (s.data.take i) (s.data.drop i)

theorem pbhTokenB_of_split (s : String) (a2 b2 : List Char)
    (hsplit : s.data = a2 ++ b2) (hp : pbhTokenAtP a2 b2) :
    hasPBHTokenB s = true := by
  unfold hasPBHTokenB
  rw [List.any_eq_true]
  refine ⟨a2.length, ?_, ?_⟩
  · rw [List.mem_range, hsplit, List.length_append]
    omega
  · rw [hsplit, List.take_left, List.drop_left]
    unfold pbhTokenAt
    obtain ⟨h1, h2⟩ := hp
    rw [Bool.and_eq_true]
    constructor
    · cases hl : a2.getLast? with
      | none => rfl
      | some c => simp [h1 c hl]
    · rw [Bool.or_eq_true]
      rcases h2 with ⟨ht, hb⟩ | ⟨ht, hb⟩
      · left
        rw [Bool.and_eq_true]
        refine ⟨by simp [ht], ?_⟩
        cases hh : (b2.drop 3).head? with
        | none => rfl
        | some c => simp [hb c hh]
      · right
        rw [Bool.and_eq_true]
        refine ⟨by simp [ht], ?_⟩
        cases hh : (b2.drop 4).head? with
        | none => rfl
        | some c => simp [hb c hh]

theorem searchRec_sound :
    ∀ (b a : List Char),
      searchRec (a.foldl (fun _ c => some c) none) b = true →
      (∃ x y, (a ++ b).map lc = x ++ "primordial".data ++ y) ∨
      (∃ a2 b2, a ++ b = a2 ++ b2 ∧ pbhTokenAtP a2 b2) := by
  intro b
  induction b with
  | nil => intro a h; simp [searchRec] at h
  | cons c cs ih =>
    intro a h
    unfold searchRec at h
    rw [Bool.or_eq_true, Bool.or_eq_true] at h
    rcases h with (h1 | h2) | h3
    · -- the phrase alternative matched here: "primordial" is a prefix of
      -- the lowered suffix
      unfold matchP1 at h1
      cases hs : stripLit "primordial".data (c :: cs) with
      | none => rw [hs] at h1; cases h1
      | some r =>
        have hmap := stripLit_sound _ _ _ hs
        left
        refine ⟨a.map lc, r.map lc, ?_⟩
        rw [List.map_append, hmap, List.append_assoc]
    · -- the token alternative matched here
      unfold matchP2 at h2
      rw [Bool.and_eq_true] at h2
      obtain ⟨hprevOk, hrest⟩ := h2
      cases hs : stripLit "pbh".data (c :: cs) with
      | none => rw [hs] at hrest; cases hrest
      | some r =>
        simp only [hs] at hrest
        have hmap := stripLit_sound _ _ _ hs
        have hdrop : r = (c :: cs).drop 3 := stripLit_drop _ _ _ hs
        right
        refine ⟨a, c :: cs, rfl, ?_, ?_⟩
        · intro ch hch
          rw [foldl_last, hch] at hprevOk
          simpa using hprevOk
        · cases hr : r with
          | nil =>
            left
            constructor
            · rw [hmap, hr]
              rfl
            · intro ch hch
              rw [← hdrop, hr] at hch
              cases hch
          | cons r0 rs =>
            simp only [hr] at hrest
            by_cases hw : isWordChar r0 = true
            · rw [hw] at hrest
              simp only [Bool.not_true, Bool.false_eq_true, if_false] at hrest
              by_cases hlc : lc r0 = 's'
              · rw [if_pos hlc] at hrest
                right
                constructor
                · rw [hmap, hr, List.map_cons, hlc]
                  rfl
                · intro ch hch
                  have h4 : (c :: cs).drop 4 = rs := by
                    have h31 : ((c :: cs).drop 3).drop 1 = (c :: cs).drop 4 :=
                      List.drop_drop 1 3 (c :: cs)
                    rw [← h31, ← hdrop, hr]
                    rfl
                  rw [h4] at hch
                  cases rs with
                  | nil => cases hch
                  | cons d ds =>
                    simp only [List.head?_cons, Option.some.injEq] at hch
                    rw [← hch]
                    simpa [boundaryOk] using hrest
              · rw [if_neg hlc] at hrest
                cases hrest
            · have hw2 : isWordChar r0 = false := Bool.eq_false_iff.mpr hw
              left
              constructor
              · rw [hmap, hr]
                rfl
              · intro ch hch
                rw [← hdrop, hr] at hch
                simp only [List.head?_cons, Option.some.injEq] at hch
                rw [← hch]
                exact hw2
    · -- no match here: recurse one position to the right
      have hfold : (a ++ [c]).foldl (fun _ ch => some ch) none = some c := by
        rw [List.foldl_append]
        rfl
      have hih := ih (a ++ [c]) (by rw [hfold]; exact h3)
      rw [List.append_assoc, List.singleton_append] at hih
      exact hih

theorem searchRec_of_matchP2 (prev : Option Char) (c : Char) (cs : List Char)
    (h : matchP2 prev (c :: cs) = true) : searchRec prev (c :: cs) = true := by
  unfold searchRec
  rw [h]
  simp

/-- C4: the filter accepts any searchable text containing
"Primordial Black Holes", or "PBH"/"pbhs" as a whole word, and rejects
any text that contains neither "primordial" (case-insensitively) nor a
whole-word PBH token — in particular text mentioning only "black hole",
or containing "PBH" merely inside a longer token.  `is_match` is a total
function of the text. -/
theorem c4_filter_soundness :
    (∀ (it : RawItem) (s u : String),
        it.fulltext = s ++ "Primordial Black Holes" ++ u → is_match it = true) ∧
    (∀ (it : RawItem) (s u : String),
        it.fulltext = s ++ "PBH" ++ u →
        (∀ c, s.data.getLast? = some c → isWordChar c = false) →
        (∀ c, u.data.head? = some c → isWordChar c = false) →
        is_match it = true) ∧
    (∀ (it : RawItem) (s u : String),
        it.fulltext = s ++ "pbhs" ++ u →
        (∀ c, s.data.getLast? = some c → isWordChar c = false) →
        (∀ c, u.data.head? = some c → isWordChar c = false) →
        is_match it = true) ∧
    (∀ it : RawItem,
        hasSub "primordial".data (it.fulltext.data.map lc) = false →
        hasPBHTokenB it.fulltext = false →
        is_match it = false) := by
  refine ⟨?_, ?_, ?_, ?_⟩
  · intro it s u hft
    unfold is_match regexSearch
    rw [hft, String.data_append, String.data_append, List.append_assoc]
    exact searchRec_of_matchP1 s.data none 'P'
      ("rimordial Black Holes".data ++ u.data) (matchP1_phrase u.data)
  · intro it s u hft hlast hhead
    unfold is_match regexSearch
    rw [hft, String.data_append, String.data_append, List.append_assoc]
    apply searchRec_extend
    apply searchRec_of_matchP2
    apply matchP2_token _ u.data _ hhead
    intro ch hch
    rw [foldl_last] at hch
    cases hl : s.data.getLast? with
    | none => rw [hl] at hch; cases hch
    | some c0 =>
      rw [hl] at hch
      simp only [Option.some.injEq] at hch
      rw [← hch]
      exact hlast c0 hl
  · intro it s u hft hlast hhead
    unfold is_match regexSearch
    rw [hft, String.data_append, String.data_append, List.append_assoc]
    apply searchRec_extend
    apply searchRec_of_matchP2
    apply matchP2_tokenS _ u.data _ hhead
    intro ch hch
    rw [foldl_last] at hch
    cases hl : s.data.getLast? with
    | none => rw [hl] at hch; cases hch
    | some c0 =>
      rw [hl] at hch
      simp only [Option.some.injEq] at hch
      rw [← hch]
      exact hlast c0 hl
  · intro it h1 h2
    by_contra hne
    have htrue : is_match it = true := by
      cases hm : is_match it with
      | false => exact absurd hm hne
      | true => rfl
    unfold is_match regexSearch at htrue
    have hsound := searchRec_sound it.fulltext.data []
      (by rw [List.foldl_nil]; exact htrue)
    rw [List.nil_append] at hsound
    rcases hsound with ⟨x, y, hxy⟩ | ⟨a2, b2, hsplit, hp⟩
    · have : hasSub "primordial".data (it.fulltext.data.map lc) = true := by
        rw [hxy, List.append_assoc]
        exact hasSub_of_split x "primordial".data y
      rw [this] at h1
      cases h1
    · have := pbhTokenB_of_split it.fulltext a2 b2 hsplit hp
      rw [this] at h2
      cases h2

/-- C4 witness: text mentioning only "black hole" and containing "PBH"
solely inside the longer token "SuperPBHX" is rejected. -/
theorem c4_witness :
    is_match { arxiv_id := "x", title := "t", authors := [], link := "l",
               fulltext := "black hole binaries and SuperPBHX",
               source := "astro-ph" } = false :=
  c4_filter_soundness.2.2.2 _ (by decide) (by decide)

/-! ## C3: ordering determinism -/

theorem addSource_mem (s x : String) (set : List String) :
    x ∈ addSource s set ↔ x ∈ set ∨ x = s := by
  unfold addSource
  by_cases h : s ∈ set
  · rw [if_pos h]
    constructor
    · exact Or.inl
    · intro hx
      rcases hx with hx | hx
      · exact hx
      · rw [hx]; exact h
  · rw [if_neg h]
    simp

theorem addSource_nodup (s : String) (set : List String) (h : set.Nodup) :
    (addSource s set).Nodup := by
  unfold addSource
  by_cases hm : s ∈ set
  · rw [if_pos hm]; exact h
  · rw [if_neg hm]
    simp [List.nodup_append, h, hm]

theorem addSource_ne_nil (s : String) (set : List String) : addSource s set ≠ [] := by
  unfold addSource
  by_cases hm : s ∈ set
  · rw [if_pos hm]
    intro h
    rw [h] at hm
    cases hm
  · rw [if_neg hm]
    simp

/-- The non-empty source labels reported for identifier `k`, in arrival
order. -/
def nesrc (l : List MergedItem) (k : String) : List String :=
  (l.filter fun it => it.arxiv_id == k && !(it.source == "")).map
    (fun it => it.source)

theorem nesrc_append (l1 l2 : List MergedItem) (k : String) :
    nesrc (l1 ++ l2) k = nesrc l1 k ++ nesrc l2 k := by
  unfold nesrc
  rw [List.filter_append, List.map_append]

theorem sort_eq_of_mem_iff (xs ys : List String) (hx : xs.Nodup) (hy : ys.Nodup)
    (hm : ∀ s, s ∈ xs ↔ s ∈ ys) :
    List.insertionSort strLEp xs = List.insertionSort strLEp ys := by
  apply List.eq_of_perm_of_sorted (r := strLEp)
  · have hperm : List.Perm xs ys := by
      apply List.perm_of_nodup_nodup_toFinset_eq hx hy
      apply Finset.ext
      intro s
      simp only [List.mem_toFinset]
      exact hm s
    exact ((List.perm_insertionSort strLEp xs).trans hperm).trans
      (List.perm_insertionSort strLEp ys).symm
  · exact List.sorted_insertionSort strLEp xs
  · exact List.sorted_insertionSort strLEp ys

/-- The rendered source string for identifier `k`, as a function of the
set of reported non-empty source labels only. -/
def specSrc (l : List MergedItem) (k : String) : String :=
  if (nesrc l k).dedup = [] then ""
  else joinSep ", " (List.insertionSort strLEp (nesrc l k).dedup)

theorem specSrc_perm (l1 l2 : List MergedItem) (hp : List.Perm l1 l2) (k : String) :
    specSrc l1 k = specSrc l2 k := by
  have hperm : List.Perm (nesrc l1 k) (nesrc l2 k) := (hp.filter _).map _
  have hmem : ∀ s, s ∈ (nesrc l1 k).dedup ↔ s ∈ (nesrc l2 k).dedup := by
    intro s
    simp [List.mem_dedup, hperm.mem_iff]
  unfold specSrc
  by_cases h1 : (nesrc l1 k).dedup = []
  · have h2 : (nesrc l2 k).dedup = [] := by
      apply List.eq_nil_iff_forall_not_mem.mpr
      intro s hs
      have := (hmem s).mpr hs
      rw [h1] at this
      cases this
    rw [if_pos h1, if_pos h2]
  · have h2 : (nesrc l2 k).dedup ≠ [] := by
      intro h2
      apply h1
      apply List.eq_nil_iff_forall_not_mem.mpr
      intro s hs
      have := (hmem s).mp hs
      rw [h2] at this
      cases this
    rw [if_neg h1, if_neg h2]
    rw [sort_eq_of_mem_iff _ _ (List.nodup_dedup _) (List.nodup_dedup _) hmem]

/-- What the dedup dict stores for identifier `k`: the source set has
exactly the reported non-empty labels, without duplicates, and the
first-arriving item's label is empty whenever the set is. -/
def accOk (l : List MergedItem) (k : String) (acc : IdAcc) : Prop :=
  (∀ s, s ∈ acc.sourceset ↔ s ∈ nesrc l k) ∧ acc.sourceset.Nodup ∧
  (acc.sourceset = [] → acc.item.source = "")

theorem accOk_congr (l1 l2 : List MergedItem) (k : String) (acc : IdAcc)
    (h : nesrc l1 k = nesrc l2 k) (ha : accOk l1 k acc) : accOk l2 k acc := by
  unfold accOk at ha ⊢
  rw [← h]
  exact ha

theorem alookup_mem_keys {α : Type} (k : String) (m : List (String × α)) (a : α)
    (h : alookup k m = some a) : k ∈ m.map Prod.fst := by
  by_contra hn
  rw [← alookup_eq_none_iff] at hn
  rw [hn] at h
  cases h

theorem nesrc_single_ne (it : MergedItem) (k : String) (h : it.arxiv_id ≠ k) :
    nesrc [it] k = [] := by
  unfold nesrc
  have : (it.arxiv_id == k) = false := by simp [h]
  simp [List.filter_cons, this]

theorem nesrc_single_eq (it : MergedItem) (k : String) (h : it.arxiv_id = k) :
    nesrc [it] k = if it.source = "" then [] else [it.source] := by
  unfold nesrc
  have hb : (it.arxiv_id == k) = true := by simp [h]
  by_cases hsrc : it.source = ""
  · have : (!(it.source == "")) = false := by simp [hsrc]
    simp [List.filter_cons, hb, this, hsrc]
  · have : (!(it.source == "")) = true := by simp [hsrc]
    simp [List.filter_cons, hb, this, hsrc]

theorem dedupMap_char (l : List MergedItem) :
    (∀ k, k ∈ (dedupMap l).map Prod.fst ↔ k ≠ "" ∧ ∃ it ∈ l, it.arxiv_id = k) ∧
    (∀ k acc, alookup k (dedupMap l) = some acc → accOk l k acc) := by
  induction l using List.reverseRecOn with
  | nil =>
    constructor
    · intro k
      simp [dedupMap]
    · intro k acc h
      simp [dedupMap, alookup] at h
  | append_singleton l it ih =>
    obtain ⟨ihk, iha⟩ := ih
    have hstep : dedupMap (l ++ [it]) = dedupStep (dedupMap l) it := by
      unfold dedupMap
      rw [List.foldl_append]
      rfl
    by_cases h0 : it.arxiv_id = ""
    · rw [hstep, dedupStep_skip _ _ h0]
      constructor
      · intro k
        rw [ihk k]
        constructor
        · rintro ⟨hk, it2, hm, he⟩
          exact ⟨hk, it2, List.mem_append_left _ hm, he⟩
        · rintro ⟨hk, it2, hm, he⟩
          rcases List.mem_append.mp hm with hm | hm
          · exact ⟨hk, it2, hm, he⟩
          · rw [List.mem_singleton] at hm
            rw [hm] at he
            rw [he] at h0
            exact absurd h0 hk
      · intro k acc h
        have hkne : k ≠ "" := ((ihk k).mp (alookup_mem_keys k _ acc h)).1
        have hne : it.arxiv_id ≠ k := fun he => hkne (he ▸ h0)
        apply accOk_congr l (l ++ [it]) k acc ?_ (iha k acc h)
        rw [nesrc_append, nesrc_single_ne it k hne, List.append_nil]
    · cases hprev : alookup it.arxiv_id (dedupMap l) with
      | none =>
        rw [hstep, dedupStep_miss _ _ h0 hprev]
        have hnotin : it.arxiv_id ∉ (dedupMap l).map Prod.fst :=
          (alookup_eq_none_iff _ _).mp hprev
        constructor
        · intro k
          rw [List.map_append]
          simp only [List.map_cons, List.map_nil, List.mem_append, List.mem_singleton]
          rw [ihk k]
          constructor
          · rintro (⟨hk, it2, hm, he⟩ | hk)
            · exact ⟨hk, it2, Or.inl hm, he⟩
            · subst hk
              exact ⟨h0, it, Or.inr rfl, rfl⟩
          · rintro ⟨hk, it2, hm | hm, he⟩
            · exact Or.inl ⟨hk, it2, hm, he⟩
            · subst hm
              exact Or.inr he.symm
        · intro k acc h
          rw [alookup_append] at h
          cases hk : alookup k (dedupMap l) with
          | some a =>
            rw [hk] at h
            simp only [Option.some.injEq] at h
            have hkk : it.arxiv_id ≠ k := by
              intro he
              rw [he] at hprev
              rw [hprev] at hk
              cases hk
            apply accOk_congr l (l ++ [it]) k acc ?_ ?_
            · rw [nesrc_append, nesrc_single_ne it k hkk, List.append_nil]
            · rw [← h]
              exact iha k a hk
          | none =>
            rw [hk] at h
            by_cases hkk : it.arxiv_id = k
            · simp only [alookup, hkk, if_pos] at h
              have hacc := Option.some.inj h
              have hempty : nesrc l k = [] := by
                rw [List.eq_nil_iff_forall_not_mem]
                intro s hs
                unfold nesrc at hs
                rcases List.mem_map.mp hs with ⟨it2, hit2, _⟩
                rcases List.mem_filter.mp hit2 with ⟨hmem, hflt⟩
                rw [Bool.and_eq_true] at hflt
                have hid : it2.arxiv_id = k := by
                  have := hflt.1
                  rwa [beq_iff_eq] at this
                have : k ∈ (dedupMap l).map Prod.fst := by
                  rw [ihk k]
                  exact ⟨fun he => h0 (hkk.symm ▸ he), it2, hmem, hid⟩
                rw [hkk] at hnotin
                exact hnotin this
              rw [← hacc]
              refine ⟨?_, ?_, ?_⟩
              · intro s
                rw [nesrc_append, hempty, List.nil_append, nesrc_single_eq it k hkk]
              · by_cases hsrc : it.source = ""
                · simp [hsrc]
                · simp [hsrc]
              · by_cases hsrc : it.source = ""
                · intro _
                  exact hsrc
                · intro hconc
                  rw [if_neg hsrc] at hconc
                  cases hconc
            · simp only [alookup, hkk, if_neg, if_false] at h
              cases h
      | some a =>
        rw [hstep, dedupStep_hit _ _ a h0 hprev]
        constructor
        · intro k
          rw [map_update_keys it.arxiv_id _ (updAcc it)]
          rw [ihk k]
          constructor
          · rintro ⟨hk, it2, hm, he⟩
            exact ⟨hk, it2, List.mem_append_left _ hm, he⟩
          · rintro ⟨hk, it2, hm, he⟩
            rcases List.mem_append.mp hm with hm | hm
            · exact ⟨hk, it2, hm, he⟩
            · rw [List.mem_singleton] at hm
              rw [hm] at he
              have hmem := alookup_mem_keys it.arxiv_id _ a hprev
              rw [ihk it.arxiv_id] at hmem
              obtain ⟨_, it3, hm3, he3⟩ := hmem
              exact ⟨hk, it3, hm3, he3.trans he⟩
        · intro k acc h
          by_cases hkk : it.arxiv_id = k
          · subst hkk
            rw [alookup_map_update it.arxiv_id _ (updAcc it), hprev] at h
            simp only [Option.map_some', Option.some.injEq] at h
            obtain ⟨hmemiff, hnd, hemp⟩ := iha it.arxiv_id a hprev
            rw [← h]
            have hns : nesrc (l ++ [it]) it.arxiv_id =
                nesrc l it.arxiv_id ++ (if it.source = "" then [] else [it.source]) := by
              rw [nesrc_append, nesrc_single_eq it _ rfl]
            unfold accOk updAcc
            simp only
            by_cases hsrc : it.source = ""
            · rw [if_pos hsrc]
              refine ⟨?_, hnd, hemp⟩
              intro s
              rw [hns, if_pos hsrc, List.append_nil]
              exact hmemiff s
            · rw [if_neg hsrc]
              refine ⟨?_, addSource_nodup _ _ hnd, ?_⟩
              · intro s
                rw [addSource_mem]
                rw [hns, if_neg hsrc, List.mem_append, List.mem_singleton]
                rw [hmemiff s]
              · intro hconc
                exact absurd hconc (addSource_ne_nil _ _)
          · rw [alookup_map_update_other it.arxiv_id k _ (updAcc it)
              (fun he => hkk he.symm)] at h
            apply accOk_congr l _ k acc ?_ (iha k acc h)
            rw [nesrc_append, nesrc_single_ne it k hkk, List.append_nil]

theorem renderSources_spec (l : List MergedItem) (p : String × IdAcc)
    (hp : p ∈ dedupMap l) : renderSources p.2 = specSrc l p.1 := by
  have hlk : alookup p.1 (dedupMap l) = some p.2 :=
    (mem_iff_alookup (dedupMap l) (dedupMap_keys_nodup l) p.1 p.2).mp hp
  obtain ⟨hmemiff, hnd, hemp⟩ := (dedupMap_char l).2 p.1 p.2 hlk
  unfold renderSources
  by_cases hempty : p.2.sourceset = []
  · have hs1 : List.insertionSort strLEp p.2.sourceset = [] := by rw [hempty]; rfl
    rw [if_pos hs1, hemp hempty]
    unfold specSrc
    have hd : (nesrc l p.1).dedup = [] := by
      rw [List.eq_nil_iff_forall_not_mem]
      intro s hs
      rw [List.mem_dedup] at hs
      have := (hmemiff s).mpr hs
      rw [hempty] at this
      cases this
    rw [if_pos hd]
  · have hs1 : List.insertionSort strLEp p.2.sourceset ≠ [] := by
      intro hc
      apply hempty
      have hlen := (List.perm_insertionSort strLEp p.2.sourceset).length_eq
      rw [hc] at hlen
      exact List.eq_nil_of_length_eq_zero hlen.symm
    rw [if_neg hs1]
    unfold specSrc
    have hd : (nesrc l p.1).dedup ≠ [] := by
      intro hc
      apply hempty
      rw [List.eq_nil_iff_forall_not_mem]
      intro s hs
      have hnm := (hmemiff s).mp hs
      rw [← List.mem_dedup] at hnm
      rw [hc] at hnm
      cases hnm
    rw [if_neg hd]
    congr 1
    exact sort_eq_of_mem_iff _ _ hnd (List.nodup_dedup _)
      (fun s => by rw [hmemiff s, List.mem_dedup])

theorem rendered_keys (l : List MergedItem) :
    ((dedupMap l).map renderAcc).map keyOf =
      ((dedupMap l).map Prod.fst).map (fun k => (specSrc l k, k)) := by
  rw [List.map_map, List.map_map]
  apply List.map_congr_left
  intro p hp
  have h1 := renderSources_spec l p hp
  have h2 := (dedupMap_items_ok l p hp).2
  simp [keyOf, renderAcc, h1, h2]

theorem dedup_keys_perm (l1 l2 : List MergedItem) (hp : List.Perm l1 l2) :
    List.Perm ((dedupMap l1).map Prod.fst) ((dedupMap l2).map Prod.fst) := by
  apply List.perm_of_nodup_nodup_toFinset_eq (dedupMap_keys_nodup l1)
    (dedupMap_keys_nodup l2)
  apply Finset.ext
  intro k
  simp only [List.mem_toFinset]
  rw [(dedupMap_char l1).1 k, (dedupMap_char l2).1 k]
  constructor <;> rintro ⟨hk, it2, hm, he⟩
  · exact ⟨hk, it2, hp.mem_iff.mp hm, he⟩
  · exact ⟨hk, it2, hp.mem_iff.mpr hm, he⟩

/-- C3: the reconciled batch is sorted by (rendered source string,
identifier) ascending, and two runs whose matched inputs are permutations
of one another serialize their records in the same key order, whatever
the internal iteration order. -/
theorem c3_ordering_determinism :
    (∀ l : List MergedItem, List.Sorted itemLE (reconcile l)) ∧
    (∀ l1 l2 : List MergedItem, List.Perm l1 l2 →
        (reconcile l1).map keyOf = (reconcile l2).map keyOf) := by
  constructor
  · intro l
    exact List.sorted_insertionSort itemLE _
  · intro l1 l2 hp
    apply List.eq_of_perm_of_sorted (r := tupLE)
    · have h1 : List.Perm ((reconcile l1).map keyOf)
          (((dedupMap l1).map renderAcc).map keyOf) :=
        (List.perm_insertionSort itemLE _).map keyOf
      have h2 : List.Perm ((reconcile l2).map keyOf)
          (((dedupMap l2).map renderAcc).map keyOf) :=
        (List.perm_insertionSort itemLE _).map keyOf
      have hmid : ((dedupMap l1).map Prod.fst).map (fun k => (specSrc l1 k, k)) =
          ((dedupMap l1).map Prod.fst).map (fun k => (specSrc l2 k, k)) := by
        apply List.map_congr_left
        intro k _
        rw [specSrc_perm l1 l2 hp k]
      refine (h1.trans ?_).trans h2.symm
      rw [rendered_keys l1, rendered_keys l2, hmid]
      exact (dedup_keys_perm l1 l2 hp).map _
    · exact List.pairwise_map.mpr (List.sorted_insertionSort itemLE _)
    · exact List.pairwise_map.mpr (List.sorted_insertionSort itemLE _)

/-- C3 witness: swapping the two sources' arrival order preserves the
serialized key order. -/
theorem c3_witness :
    (reconcile
      [{ source := "gr-qc", arxiv_id := "2512.00001", title := "T2",
         authors := ["B"], link := "L2" },
       { source := "astro-ph", arxiv_id := "2512.00001", title := "T1",
         authors := ["A"], link := "L1" }]).map keyOf =
    (reconcile
      [{ source := "astro-ph", arxiv_id := "2512.00001", title := "T1",
         authors := ["A"], link := "L1" },
       { source := "gr-qc", arxiv_id := "2512.00001", title := "T2",
         authors := ["B"], link := "L2" }]).map keyOf :=
  c3_ordering_determinism.2 _ _ (by decide)
